import Mathlib

/-!
Shallow embedding of the VerusCoin transaction memory pool
(src/txmempool.cpp) and proofs about its claims.

Modelling conventions:
* `uint256` hashes and nullifiers are modelled as `Nat` (abstract identities).
* C++ `std::map`s are modelled as association lists with nodup keys maintained
  by construction; `operator[]` assignment replaces the value at a key.
* The multi-index primary store `mapTx` is keyed by the transaction hash
  (in the source the key is derived from the stored transaction itself);
  `insert` is a no-op when the key is already present, as for a unique index.
* Secondary indexes in the source store raw pointers to the pooled
  transaction object; those pointers are only dereferenced while the
  transaction is pooled, so they are modelled by the transaction value.
* `double` arithmetic (priorities) is modelled by exact `Rat` arithmetic;
  unsigned 32-bit wraparound is modelled explicitly where the source relies
  on it.  `uint64_t` counters are modelled as `Nat` (no claim exercises
  64-bit overflow); the source's unsigned `-=` is Nat truncated subtraction,
  which agrees with the source whenever the subtrahend does not exceed the
  counter, as is the case in every state considered by the claims.
-/

/-! ### Association-list maps (model of std::map / boost multi_index) -/

section AssocMap

variable {K : Type} {V : Type} [DecidableEq K]

/-- Lookup of the first entry with the given key (std::map::find). -/
def findA : List (K × V) → K → Option V
  | [], _ => none
  | (k2, v) :: m, k => if k2 = k then some v else findA m k

/-- Erase every entry with the given key (std::map::erase). -/
def eraseA : List (K × V) → K → List (K × V)
  | [], _ => []
  | (k2, v) :: m, k => if k2 = k then eraseA m k else (k2, v) :: eraseA m k

/-- Insert, replacing any existing entry at the key (std::map::operator[]=). -/
def insertA (m : List (K × V)) (k : K) (v : V) : List (K × V) :=
  (k, v) :: eraseA m k

/-- Key-membership test (std::map::count ≠ 0). -/
def containsA (m : List (K × V)) (k : K) : Bool :=
  (findA m k).isSome

/-- All values stored at the given key, in list order. -/
def entriesAtA (m : List (K × V)) (k : K) : List V :=
  m.foldr (fun p acc => if p.1 = k then p.2 :: acc else acc) []

/-- Keys of the map. -/
def keysA (m : List (K × V)) : List K := m.map Prod.fst

theorem findA_nil (k : K) : findA ([] : List (K × V)) k = none := rfl

theorem findA_cons (k2 : K) (v : V) (m : List (K × V)) (k : K) :
    findA ((k2, v) :: m) k = if k2 = k then some v else findA m k := rfl

theorem findA_eraseA (m : List (K × V)) (k k2 : K) :
    findA (eraseA m k) k2 = if k2 = k then none else findA m k2 := by
  induction m with
  | nil => simp [eraseA, findA]
  | cons p m ih =>
    obtain ⟨k3, v⟩ := p
    by_cases h3 : k3 = k
    · subst h3
      by_cases h2 : k2 = k3
      · subst h2; simpa [eraseA] using ih
      · simp [eraseA, findA, h2, Ne.symm h2, ih]
    · by_cases h4 : k3 = k2
      · subst h4
        simp [eraseA, findA, h3, Ne.symm h3]
      · simp [eraseA, findA, h3, h4, ih]

theorem findA_insertA (m : List (K × V)) (k : K) (v : V) (k2 : K) :
    findA (insertA m k v) k2 = if k = k2 then some v else findA m k2 := by
  unfold insertA
  by_cases h : k = k2
  · subst h; simp [findA]
  · simp [findA, findA_eraseA, h, Ne.symm h]

theorem containsA_eq_true_iff (m : List (K × V)) (k : K) :
    containsA m k = true ↔ ∃ v, findA m k = some v := by
  unfold containsA
  cases h : findA m k <;> simp [h]

theorem containsA_eq_false_iff (m : List (K × V)) (k : K) :
    containsA m k = false ↔ findA m k = none := by
  unfold containsA
  cases h : findA m k <;> simp [h]

theorem length_eraseA_le (m : List (K × V)) (k : K) :
    (eraseA m k).length ≤ m.length := by
  induction m with
  | nil => simp [eraseA]
  | cons p m ih =>
    obtain ⟨k2, v⟩ := p
    by_cases h : k2 = k
    · simp only [eraseA, if_pos h]
      exact Nat.le_succ_of_le ih
    · simp only [eraseA, if_neg h, List.length_cons]
      exact Nat.succ_le_succ ih

theorem length_eraseA_lt (m : List (K × V)) (k : K) {v : V}
    (h : findA m k = some v) : (eraseA m k).length < m.length := by
  induction m with
  | nil => simp [findA] at h
  | cons p m ih =>
    obtain ⟨k2, v2⟩ := p
    by_cases h2 : k2 = k
    · simp only [eraseA, if_pos h2, List.length_cons]
      exact Nat.lt_succ_of_le (length_eraseA_le m k)
    · simp only [findA, if_neg h2] at h
      simp only [eraseA, if_neg h2, List.length_cons]
      exact Nat.succ_lt_succ (ih h)

theorem mem_eraseA {m : List (K × V)} {k : K} {p : K × V}
    (h : p ∈ eraseA m k) : p ∈ m ∧ p.1 ≠ k := by
  induction m with
  | nil => simp [eraseA] at h
  | cons q m ih =>
    obtain ⟨k2, v2⟩ := q
    by_cases h2 : k2 = k
    · simp only [eraseA, if_pos h2] at h
      obtain ⟨hm, hne⟩ := ih h
      exact ⟨List.mem_cons_of_mem _ hm, hne⟩
    · simp only [eraseA, if_neg h2] at h
      rcases List.mem_cons.mp h with h | h
      · subst h; exact ⟨List.mem_cons_self _ _, h2⟩
      · obtain ⟨hm, hne⟩ := ih h
        exact ⟨List.mem_cons_of_mem _ hm, hne⟩

theorem mem_eraseA_of_mem {m : List (K × V)} {k : K} {p : K × V}
    (h : p ∈ m) (hne : p.1 ≠ k) : p ∈ eraseA m k := by
  induction m with
  | nil => simp at h
  | cons q m ih =>
    obtain ⟨k2, v2⟩ := q
    rcases List.mem_cons.mp h with h | h
    · subst h
      simp only [eraseA, if_neg hne]
      exact List.mem_cons_self _ _
    · by_cases h2 : k2 = k
      · simp only [eraseA, if_pos h2]
        exact ih h
      · simp only [eraseA, if_neg h2]
        exact List.mem_cons_of_mem _ (ih h)

theorem findA_mem {m : List (K × V)} {k : K} {v : V}
    (h : findA m k = some v) : (k, v) ∈ m := by
  induction m with
  | nil => simp [findA] at h
  | cons p m ih =>
    obtain ⟨k2, v2⟩ := p
    simp only [findA] at h
    split at h
    · next heq =>
      subst heq
      cases h
      exact List.mem_cons_self _ _
    · exact List.mem_cons_of_mem _ (ih h)

/-- Nodup keys: at most one entry per key. -/
def NodupKeysA (m : List (K × V)) : Prop := (m.map Prod.fst).Nodup

instance (m : List (K × V)) : Decidable (NodupKeysA m) := by
  unfold NodupKeysA; infer_instance

theorem nodupKeysA_nil : NodupKeysA ([] : List (K × V)) := by
  simp [NodupKeysA]

theorem nodupKeysA_eraseA {m : List (K × V)} (h : NodupKeysA m) (k : K) :
    NodupKeysA (eraseA m k) := by
  induction m with
  | nil => simpa [eraseA] using h
  | cons p m ih =>
    obtain ⟨k2, v2⟩ := p
    simp only [NodupKeysA, List.map_cons, List.nodup_cons] at h
    by_cases h2 : k2 = k
    · simp only [eraseA, if_pos h2]
      exact ih h.2
    · simp only [eraseA, if_neg h2, NodupKeysA, List.map_cons, List.nodup_cons]
      refine ⟨fun hmem => ?_, ih h.2⟩
      obtain ⟨q, hq, hqk⟩ := List.mem_map.mp hmem
      exact h.1 (List.mem_map.mpr ⟨q, (mem_eraseA hq).1, hqk⟩)

theorem nodupKeysA_insertA {m : List (K × V)} (h : NodupKeysA m) (k : K) (v : V) :
    NodupKeysA (insertA m k v) := by
  unfold insertA
  simp only [NodupKeysA, List.map_cons, List.nodup_cons]
  refine ⟨fun hmem => ?_, nodupKeysA_eraseA h k⟩
  obtain ⟨q, hq, hqk⟩ := List.mem_map.mp hmem
  exact (mem_eraseA hq).2 hqk

theorem findA_eq_some_of_mem {m : List (K × V)} (h : NodupKeysA m) {p : K × V}
    (hp : p ∈ m) : findA m p.1 = some p.2 := by
  induction m with
  | nil => simp at hp
  | cons q m ih =>
    obtain ⟨k2, v2⟩ := q
    simp only [NodupKeysA, List.map_cons, List.nodup_cons] at h
    rcases List.mem_cons.mp hp with hp | hp
    · subst hp; simp [findA]
    · have hne : k2 ≠ p.1 := by
        intro he
        exact h.1 (List.mem_map.mpr ⟨p, hp, he.symm⟩)
      simp only [findA, if_neg hne]
      exact ih h.2 hp

theorem entriesAtA_eq_of_nodup {m : List (K × V)} (h : NodupKeysA m) (k : K) :
    entriesAtA m k = (findA m k).elim [] (fun v => [v]) := by
  induction m with
  | nil => simp [entriesAtA, findA]
  | cons p m ih =>
    obtain ⟨k2, v2⟩ := p
    simp only [NodupKeysA, List.map_cons, List.nodup_cons] at h
    by_cases h2 : k2 = k
    · subst h2
      have hnone : findA m k2 = none := by
        cases hf : findA m k2 with
        | none => rfl
        | some v =>
          exact absurd (List.mem_map.mpr ⟨(k2, v), findA_mem hf, rfl⟩) h.1
      have hrest : entriesAtA m k2 = [] := by
        rw [ih h.2, hnone]
        rfl
      simp only [entriesAtA, List.foldr_cons, if_pos rfl, findA]
      simp only [entriesAtA] at hrest
      simp [hrest]
    · simp only [entriesAtA, List.foldr_cons, if_neg h2, findA, if_neg h2]
      exact ih h.2

end AssocMap

/-! ### Transaction data model

The transaction structure itself (`primitives/transaction.h`) is not part of
the provided sources; the fields below are exactly those the mempool module
reads.  The hash is the transaction's identity (`GetHash()`); `IsCoinImport`
and the reserve output value are opaque to the mempool and modelled as
fields. -/

/-- Outpoint (spent transaction hash, output index). -/
structure COutPoint where
  hash : Nat
  n : Nat
deriving DecidableEq

/-- Transaction input; the mempool reads only its `prevout`. -/
structure CTxIn where
  prevout : COutPoint
deriving DecidableEq

/-- Transaction output; the mempool reads only its value. -/
structure CTxOut where
  nValue : Int
deriving DecidableEq

/-- Sprout joinsplit description: anchor and spent-note nullifiers. -/
structure JSDescription where
  anchor : Nat
  nullifiers : List Nat
deriving DecidableEq

/-- Sapling spend description: anchor and spent-note nullifier. -/
structure SpendDescription where
  anchor : Nat
  nullifier : Nat
deriving DecidableEq

/-- Transaction, with the fields the mempool module reads. -/
structure CTransaction where
  hash : Nat
  vin : List CTxIn
  vout : List CTxOut
  vJoinSplit : List JSDescription
  vShieldedSpend : List SpendDescription
  isCoinImport : Bool
  isCoinBase : Bool
  reserveValueOut : Int
deriving DecidableEq

/-- Total declared output value (`CTransaction::GetValueOut`). -/
def CTransaction.GetValueOut (tx : CTransaction) : Int :=
  (tx.vout.map CTxOut.nValue).sum

/-- All sprout nullifiers spent by a transaction, in iteration order. -/
def sproutNullifiersOf (tx : CTransaction) : List Nat :=
  (tx.vJoinSplit.map JSDescription.nullifiers).flatten

/-- All sapling nullifiers spent by a transaction, in iteration order. -/
def saplingNullifiersOf (tx : CTransaction) : List Nat :=
  tx.vShieldedSpend.map SpendDescription.nullifier

/-- Shielded pool type; `other` stands for any enum value that is neither
`SPROUT` nor `SAPLING` (a C++ enum can carry such values). -/
inductive ShieldedType where
  | sprout
  | sapling
  | other (value : Nat)
deriving DecidableEq

/-- Mempool entry (`CTxMemPoolEntry`): a transaction plus frozen metadata. -/
structure CTxMemPoolEntry where
  tx : CTransaction
  nFee : Int
  nTxSize : Nat
  nModSize : Nat
  nUsageSize : Nat
  nTime : Int
  dPriority : Rat
  nHeight : Nat
  hadNoDependencies : Bool
  spendsCoinbase : Bool
  hasReserve : Bool
  nBranchId : Nat
deriving DecidableEq

/-- Spend-index value (`CInPoint`): consuming transaction and input index.
The source stores a pointer to the pooled transaction; it is modelled by the
transaction value, which is what every dereference reads. -/
structure CInPoint where
  ptx : CTransaction
  n : Nat
deriving DecidableEq

/-! ### Pool state -/

/-- The mempool state: primary index, spend index, nullifier indexes,
notification side list, counters and prioritisation tables.  The miner
policy estimator and the feature-gated address/spent auxiliary indexes are
external collaborators and are not part of the core state (no claim
concerns them).  `mapReserveTransactions` values are opaque here. -/
structure MemPoolState where
  mapTx : List (Nat × CTxMemPoolEntry)
  mapNextTx : List (COutPoint × CInPoint)
  mapSproutNullifiers : List (Nat × CTransaction)
  mapSaplingNullifiers : List (Nat × CTransaction)
  mapRecentlyAddedTx : List (Nat × CTransaction)
  nRecentlyAddedSequence : Nat
  nTransactionsUpdated : Nat
  totalTxSize : Nat
  cachedInnerUsage : Nat
  mapDeltas : List (Nat × (Rat × Int))
  mapReserveTransactions : List (Nat × Unit)

/-- The pool right after construction (`CTxMemPool::CTxMemPool`):
all indexes empty, `nTransactionsUpdated` zero. -/
def emptyPool : MemPoolState :=
  { mapTx := []
    mapNextTx := []
    mapSproutNullifiers := []
    mapSaplingNullifiers := []
    mapRecentlyAddedTx := []
    nRecentlyAddedSequence := 0
    nTransactionsUpdated := 0
    totalTxSize := 0
    cachedInnerUsage := 0
    mapDeltas := []
    mapReserveTransactions := [] }

/-! ### addUnchecked (txmempool.cpp lines 107-135) -/

/-- `CTxMemPool::addUnchecked`.  The primary index insert is a unique-index
insert (no-op when the hash is already present); `tx` is the transaction
found at `hash` after the insert (`mapTx.find(hash)->GetTx()`), which is the
inserted entry's transaction whenever the caller respects the contract that
`hash` is the entry's transaction hash and is not already pooled. -/
def CTxMemPool.addUnchecked (hash : Nat) (entry : CTxMemPoolEntry)
    (pool : MemPoolState) : MemPoolState :=
  let mapTx2 := if containsA pool.mapTx hash then pool.mapTx
                else (hash, entry) :: pool.mapTx
  let tx := ((findA mapTx2 hash).getD entry).tx
  { pool with
    mapTx := mapTx2
    mapRecentlyAddedTx := insertA pool.mapRecentlyAddedTx tx.hash tx
    nRecentlyAddedSequence := pool.nRecentlyAddedSequence + 1
    mapNextTx :=
      if tx.isCoinImport then pool.mapNextTx
      else tx.vin.enum.foldl
        (fun m p => insertA m p.2.prevout (CInPoint.mk tx p.1)) pool.mapNextTx
    mapSproutNullifiers :=
      tx.vJoinSplit.foldl
        (fun m js => js.nullifiers.foldl (fun m nf => insertA m nf tx) m)
        pool.mapSproutNullifiers
    mapSaplingNullifiers :=
      tx.vShieldedSpend.foldl
        (fun m sd => insertA m sd.nullifier tx) pool.mapSaplingNullifiers
    nTransactionsUpdated := pool.nTransactionsUpdated + 1
    totalTxSize := pool.totalTxSize + entry.nTxSize
    cachedInnerUsage := pool.cachedInnerUsage + entry.nUsageSize }

/-! ### remove (txmempool.cpp lines 248-306) -/

/-- The pooled children of outputs `0 .. nvout-1` of `hash`, found through
the spend index, in output-index order (the child-enqueueing loops of
`CTxMemPool::remove`). -/
def childHashes (pool : MemPoolState) (hash : Nat) (nvout : Nat) : List Nat :=
  (List.range nvout).filterMap
    (fun i => (findA pool.mapNextTx (COutPoint.mk hash i)).map
      (fun ip => ip.ptx.hash))

/-- One removal step of `CTxMemPool::remove`'s work loop: erase the pooled
transaction `hash` (with primary-index entry `entry`) from every index,
adjust the counters and clear its prioritisation. -/
def eraseTx (pool : MemPoolState) (hash : Nat) (entry : CTxMemPoolEntry) :
    MemPoolState :=
  let tx := entry.tx
  { pool with
    mapRecentlyAddedTx := eraseA pool.mapRecentlyAddedTx hash
    mapNextTx := tx.vin.foldl (fun m txin => eraseA m txin.prevout) pool.mapNextTx
    mapSproutNullifiers :=
      tx.vJoinSplit.foldl
        (fun m js => js.nullifiers.foldl (fun m nf => eraseA m nf) m)
        pool.mapSproutNullifiers
    mapSaplingNullifiers :=
      tx.vShieldedSpend.foldl
        (fun m sd => eraseA m sd.nullifier) pool.mapSaplingNullifiers
    totalTxSize := pool.totalTxSize - entry.nTxSize
    cachedInnerUsage := pool.cachedInnerUsage - entry.nUsageSize
    mapTx := eraseA pool.mapTx hash
    nTransactionsUpdated := pool.nTransactionsUpdated + 1
    mapDeltas := eraseA pool.mapDeltas tx.hash
    mapReserveTransactions := eraseA pool.mapReserveTransactions tx.hash }

/-- Record a transaction as appended to the caller's `removed` list
(`removed.push_back(tx)`), in front of the removals that follow it. -/
def prependRemoved (tx : CTransaction) (r : MemPoolState × List CTransaction) :
    MemPoolState × List CTransaction :=
  (r.1, tx :: r.2)

/-- The breadth-first work loop of `CTxMemPool::remove`: pop a hash, skip it
if not pooled, otherwise (when recursive) enqueue its pooled children and
erase it.  Returns the final state and the transactions appended to the
caller's `removed` list, in removal order. -/
def removeLoop (fRecursive : Bool) (pool : MemPoolState) (queue : List Nat) :
    MemPoolState × List CTransaction :=
  match queue with
  | [] => (pool, [])
  | hash :: rest =>
    match hfind : findA pool.mapTx hash with
    | none => removeLoop fRecursive pool rest
    | some entry =>
      prependRemoved entry.tx
        (removeLoop fRecursive (eraseTx pool hash entry)
          (if fRecursive
           then rest ++ childHashes pool hash entry.tx.vout.length
           else rest))
termination_by (pool.mapTx.length, queue.length)
decreasing_by
  · apply Prod.Lex.right
    simp
  · apply Prod.Lex.left
    exact length_eraseA_lt _ _ hfind

/-- `CTxMemPool::remove(origTx, removed, fRecursive)`.  Returns the final
state and the list of transactions appended to `removed`. -/
def CTxMemPool.remove (origTx : CTransaction) (fRecursive : Bool)
    (pool : MemPoolState) : MemPoolState × List CTransaction :=
  removeLoop fRecursive pool
    (if fRecursive ∧ ¬ containsA pool.mapTx origTx.hash then
       origTx.hash :: childHashes pool origTx.hash origTx.vout.length
     else [origTx.hash])

/-! ### clear (txmempool.cpp lines 503-511) -/

/-- `CTxMemPool::clear`: clears the primary and spend indexes and the size
counters and bumps the update counter.  Note the source does not touch the
nullifier indexes. -/
def CTxMemPool.clear (pool : MemPoolState) : MemPoolState :=
  { pool with
    mapTx := []
    mapNextTx := []
    totalTxSize := 0
    cachedInnerUsage := 0
    nTransactionsUpdated := pool.nTransactionsUpdated + 1 }

/-! ### removeConflicts (txmempool.cpp lines 391-427) -/

/-- The body of `removeConflicts`'s conditional recursive removal: remove
the found conflicting transaction unless it is `tx` itself (the source
compares transactions, i.e. their hashes), appending the removals. -/
def conflictRecurse (tx : CTransaction)
    (acc : MemPoolState × List CTransaction) (txConflict : CTransaction) :
    MemPoolState × List CTransaction :=
  if txConflict.hash ≠ tx.hash then
    ((CTxMemPool.remove txConflict true acc.1).1,
     acc.2 ++ (CTxMemPool.remove txConflict true acc.1).2)
  else acc

/-- One iteration of `removeConflicts`'s loop over `tx.vin`. -/
def conflictStepVin (tx : CTransaction)
    (acc : MemPoolState × List CTransaction) (txin : CTxIn) :
    MemPoolState × List CTransaction :=
  match findA acc.1.mapNextTx txin.prevout with
  | some ip => conflictRecurse tx acc ip.ptx
  | none => acc

/-- One iteration of `removeConflicts`'s loop over a joinsplit's
nullifiers. -/
def conflictStepSprout (tx : CTransaction)
    (acc : MemPoolState × List CTransaction) (nf : Nat) :
    MemPoolState × List CTransaction :=
  match findA acc.1.mapSproutNullifiers nf with
  | some txc => conflictRecurse tx acc txc
  | none => acc

/-- One iteration of `removeConflicts`'s loop over `tx.vShieldedSpend`. -/
def conflictStepSapling (tx : CTransaction)
    (acc : MemPoolState × List CTransaction) (sd : SpendDescription) :
    MemPoolState × List CTransaction :=
  match findA acc.1.mapSaplingNullifiers sd.nullifier with
  | some txc => conflictRecurse tx acc txc
  | none => acc

/-- `CTxMemPool::removeConflicts(tx, removed)`: for each transparent prevout
and each shielded nullifier of `tx`, look up the current spend / nullifier
index and recursively remove the conflicting transaction found there unless
it is `tx` itself.  Returns the final state and the transactions appended
to `removed`. -/
def CTxMemPool.removeConflicts (tx : CTransaction) (pool : MemPoolState) :
    MemPoolState × List CTransaction :=
  let acc1 := tx.vin.foldl (conflictStepVin tx) (pool, [])
  let acc2 := tx.vJoinSplit.foldl
    (fun acc js => js.nullifiers.foldl (conflictStepSprout tx) acc) acc1
  tx.vShieldedSpend.foldl (conflictStepSapling tx) acc2

/-! ### removeWithAnchor (txmempool.cpp lines 351-389) -/

/-- The collection loop of `CTxMemPool::removeWithAnchor`: walk the primary
index, and for each pooled transaction switch on the shielded type —
throwing `Unknown shielded type` from the default branch — collecting the
transactions whose relevant anchor equals the invalidated root. -/
def collectWithAnchor (invalidRoot : Nat) (type : ShieldedType) :
    List (Nat × CTxMemPoolEntry) → Except String (List CTransaction)
  | [] => Except.ok []
  | (_, e) :: rest =>
    match type with
    | ShieldedType.sprout =>
      (collectWithAnchor invalidRoot type rest).map
        (fun l => if e.tx.vJoinSplit.any (fun js => js.anchor = invalidRoot)
                  then e.tx :: l else l)
    | ShieldedType.sapling =>
      (collectWithAnchor invalidRoot type rest).map
        (fun l => if e.tx.vShieldedSpend.any (fun sd => sd.anchor = invalidRoot)
                  then e.tx :: l else l)
    | ShieldedType.other _ => Except.error "Unknown shielded type"

/-- `CTxMemPool::removeWithAnchor(invalidRoot, type)`: collect the affected
transactions (throwing on an unknown shielded type inside the per-transaction
loop), then recursively remove each with a fresh `removed` list. -/
def CTxMemPool.removeWithAnchor (invalidRoot : Nat) (type : ShieldedType)
    (pool : MemPoolState) : Except String MemPoolState :=
  (collectWithAnchor invalidRoot type pool.mapTx).map
    (fun txs => txs.foldl (fun p tx => (CTxMemPool.remove tx true p).1) pool)

/-! ### Queries (txmempool.cpp lines 660-667, 782-800) -/

/-- `CTxMemPool::lookup(hash, result)`: the pooled transaction at `hash`. -/
def CTxMemPool.lookup (pool : MemPoolState) (hash : Nat) : Option CTransaction :=
  (findA pool.mapTx hash).map CTxMemPoolEntry.tx

/-- `CTxMemPool::exists(hash)`: primary-index membership. -/
def CTxMemPool.existsTx (pool : MemPoolState) (hash : Nat) : Bool :=
  containsA pool.mapTx hash

/-- `CTxMemPool::nullifierExists(nullifier, type)`: key membership in the
nullifier index selected by `type`; the switch default throws
`Unknown nullifier type`. -/
def CTxMemPool.nullifierExists (pool : MemPoolState) (nullifier : Nat)
    (type : ShieldedType) : Except String Bool :=
  match type with
  | ShieldedType.sprout =>
    Except.ok (containsA pool.mapSproutNullifiers nullifier)
  | ShieldedType.sapling =>
    Except.ok (containsA pool.mapSaplingNullifiers nullifier)
  | ShieldedType.other _ => Except.error "Unknown nullifier type"

/-- The per-entry condition asserted by `CTxMemPool::checkNullifiers` over a
nullifier index: the recorded consuming transaction is found in the primary
index and is that entry's transaction. -/
def checkNullifierMap (pool : MemPoolState) (m : List (Nat × CTransaction)) :
    Bool :=
  m.all (fun q =>
    match findA pool.mapTx q.2.hash with
    | some e => e.tx = q.2
    | none => false)

/-! ### Priority (txmempool.cpp lines 50-63) -/

/-- Unsigned 32-bit wraparound subtraction, as performed on the
`unsigned int` heights in `GetPriority`. -/
def usub32 (a b : Nat) : Nat :=
  ((a % 4294967296) + 4294967296 - (b % 4294967296)) % 4294967296

/-- Reinterpret an unsigned 32-bit value as a signed `int` (the conversion
applied to the `currentHeight - 1` argument of the currency-state provider). -/
def toInt32 (v : Nat) : Int :=
  if v % 4294967296 < 2147483648 then ((v % 4294967296 : Nat) : Int)
  else ((v % 4294967296 : Nat) : Int) - 4294967296

/-- Currency state as the mempool consumes it: only its reserve-to-native
conversion is read.  The provider (`ConnectedChains.GetCurrencyState`)
returns `none` for a state whose `IsValid()` is false. -/
structure CCurrencyState where
  reserveToNative : Int → Int

/-- `CTxMemPoolEntry::GetPriority(currentHeight)`.  The heights are C++
`unsigned int`s, so both `currentHeight - nHeight` and the provider argument
`currentHeight - 1` wrap modulo 2^32 (the clamped `lastHeight` local in the
source is computed but never used); the provider argument is then converted
to a signed `int`.  Double arithmetic is modelled exactly over `Rat`. -/
def CTxMemPoolEntry.GetPriority (provider : Int → Option CCurrencyState)
    (e : CTxMemPoolEntry) (currentHeight : Nat) : Rat :=
  let nValueIn : Int := e.tx.GetValueOut + e.nFee
  let nValueIn : Int :=
    match (if e.hasReserve
           then provider (toInt32 (usub32 currentHeight 1)) else none) with
    | some cs => nValueIn + cs.reserveToNative e.tx.reserveValueOut
    | none => nValueIn
  let deltaPriority : Rat :=
    (((usub32 currentHeight e.nHeight) : Rat) * (nValueIn : Rat)) /
      (e.nModSize : Rat)
  e.dPriority + deltaPriority

/-- Modelled from the spec: the claimed priority formula, read with exact
integer arithmetic — seed priority plus
`(currentHeight − insertionHeight) × valueIn / modifiedSize`, with the
reserve term included in `valueIn` exactly when the reserve flag is set and
the provider keyed at `currentHeight − 1` reports a valid state. -/
def specGetPriority (provider : Int → Option CCurrencyState)
    (e : CTxMemPoolEntry) (currentHeight : Nat) : Rat :=
  let reserveTerm : Int :=
    match (if e.hasReserve
           then provider ((currentHeight : Int) - 1) else none) with
    | some cs => cs.reserveToNative e.tx.reserveValueOut
    | none => 0
  let valueIn : Int := e.tx.GetValueOut + e.nFee + reserveTerm
  e.dPriority +
    (((currentHeight : Rat) - (e.nHeight : Rat)) * (valueIn : Rat)) /
      (e.nModSize : Rat)

/-! ### Prioritisation (txmempool.cpp lines 715-742) -/

/-- `CTxMemPool::PrioritiseTransaction(hash, strHash, dPriorityDelta,
nFeeDelta)`: `mapDeltas[hash]` default-constructs a zero pair when absent,
then both deltas are accumulated additively. -/
def CTxMemPool.PrioritiseTransaction (hash : Nat) (dPriorityDelta : Rat)
    (nFeeDelta : Int) (pool : MemPoolState) : MemPoolState :=
  let deltas := (findA pool.mapDeltas hash).getD (0, 0)
  { pool with
    mapDeltas :=
      insertA pool.mapDeltas hash
        (deltas.1 + dPriorityDelta, deltas.2 + nFeeDelta) }

/-- `CTxMemPool::ApplyDeltas(hash, dPriorityDelta, nFeeDelta)`: adds the
accumulated deltas, if any, to the in/out parameters; the pool is not
modified (the returned pair is the final value of the parameters). -/
def CTxMemPool.ApplyDeltas (hash : Nat) (dPriorityDelta : Rat)
    (nFeeDelta : Int) (pool : MemPoolState) : Rat × Int :=
  match findA pool.mapDeltas hash with
  | none => (dPriorityDelta, nFeeDelta)
  | some deltas => (dPriorityDelta + deltas.1, nFeeDelta + deltas.2)

/-- `CTxMemPool::ClearPrioritisation(hash)`. -/
def CTxMemPool.ClearPrioritisation (hash : Nat) (pool : MemPoolState) :
    MemPoolState :=
  { pool with
    mapDeltas := eraseA pool.mapDeltas hash
    mapReserveTransactions := eraseA pool.mapReserveTransactions hash }

/-! ### Coins-view overlay (txmempool.cpp lines 845-866) -/

/-- `MEMPOOL_HEIGHT` sentinel (from the chain parameters header, not under
the provided sources; its value is irrelevant to the claims). -/
def MEMPOOL_HEIGHT : Nat := 2147483647

/-- Modelled from the spec: a coins record (`CCoins`, declared outside the
provided sources).  `vout` holds the still-unspent outputs (`none` =
spent/pruned slot); constructing from a transaction marks every output
unspent; `IsPruned` holds when no unspent output remains. -/
structure CCoins where
  fCoinBase : Bool
  vout : List (Option CTxOut)
  nHeight : Nat
deriving DecidableEq

/-- `CCoins(tx, nHeight)` constructor. -/
def CCoins.ofTx (tx : CTransaction) (nHeightIn : Nat) : CCoins :=
  { fCoinBase := tx.isCoinBase
    vout := tx.vout.map some
    nHeight := nHeightIn }

/-- `CCoins::IsPruned()`: every output slot is empty. -/
def CCoins.IsPruned (c : CCoins) : Bool :=
  c.vout.all Option.isNone

/-- `CCoinsViewMemPool::GetCoins(txid, coins)`: a pool entry wins; otherwise
the backing view's answer, with a fully pruned hit reported as a miss.
The backing view is an arbitrary function `baseGetCoins`. -/
def CCoinsViewMemPool.GetCoins (pool : MemPoolState)
    (baseGetCoins : Nat → Option CCoins) (txid : Nat) : Option CCoins :=
  match CTxMemPool.lookup pool txid with
  | some tx => some (CCoins.ofTx tx MEMPOOL_HEIGHT)
  | none =>
    match baseGetCoins txid with
    | some coins => if coins.IsPruned then none else some coins
    | none => none

/-- `CCoinsViewMemPool::GetNullifier(nf, type)`: pool nullifier index ORed
with the backing view; an unknown type propagates the pool's exception. -/
def CCoinsViewMemPool.GetNullifier (pool : MemPoolState)
    (baseGetNullifier : Nat → ShieldedType → Bool) (nf : Nat)
    (type : ShieldedType) : Except String Bool :=
  match CTxMemPool.nullifierExists pool nf type with
  | Except.ok b => Except.ok (b || baseGetNullifier nf type)
  | Except.error e => Except.error e

/-- `CCoinsViewMemPool::HaveCoins(txid)`: pool membership OR backing view. -/
def CCoinsViewMemPool.HaveCoins (pool : MemPoolState)
    (baseHaveCoins : Nat → Bool) (txid : Nat) : Bool :=
  CTxMemPool.existsTx pool txid || baseHaveCoins txid

/-! ### Fee-estimator state I/O (txmempool.cpp lines 680-713)

The estimator (`CBlockPolicyEstimator`) is an external collaborator; its
serialized state is an opaque `List Int` and its `Read` is an arbitrary
fallible function (`none` models a thrown exception).  The stream is a
`List Int`; running out of items while reading models a stream exception,
which the source catches. -/

/-- `CTxMemPool::WriteFeeEstimates(fileout)`: writes the reader-required
version `109900`, then the writing client's version, then the estimator
state. -/
def CTxMemPool.WriteFeeEstimates (clientVersion : Int)
    (estimatorState : List Int) : List Int :=
  109900 :: clientVersion :: estimatorState

/-- `CTxMemPool::ReadFeeEstimates(filein)`: reads the two version ints,
fails (returning `false`, pool and estimator untouched) when the required
version exceeds the running client's version or when any read throws;
on success only the estimator state is replaced.  Returns
`(success, pool, estimator)`. -/
def CTxMemPool.ReadFeeEstimates
    (estimatorRead : List Int → Option (List Int)) (clientVersion : Int)
    (filein : List Int) (pool : MemPoolState) (estimator : List Int) :
    Bool × MemPoolState × List Int :=
  match filein with
  | nVersionRequired :: _nVersionThatWrote :: rest =>
    if nVersionRequired > clientVersion then (false, pool, estimator)
    else
      match estimatorRead rest with
      | some est2 => (true, pool, est2)
      | none => (false, pool, estimator)
  | _ => (false, pool, estimator)

/-! ### Claim C8: prioritisation accumulation -/

/-- C8: PrioritiseTransaction always succeeds, leaves the primary index
untouched, and accumulates both deltas additively (zero-initialising an
absent entry); ApplyDeltas adds the accumulated deltas to its output
parameters and adds nothing when no entry exists; two
PrioritiseTransaction(h, +5, +1000) calls followed by ApplyDeltas with
zero-initialised outputs yield exactly (+10, +2000) more than before. -/
theorem c8_prioritise_applyDeltas :
    ∀ (pool : MemPoolState) (hash : Nat) (d : Rat) (f : Int),
      ((CTxMemPool.PrioritiseTransaction hash d f pool).mapTx = pool.mapTx) ∧
      (findA (CTxMemPool.PrioritiseTransaction hash d f pool).mapDeltas hash =
        some (((findA pool.mapDeltas hash).getD (0, 0)).1 + d,
              ((findA pool.mapDeltas hash).getD (0, 0)).2 + f)) ∧
      (findA pool.mapDeltas hash = none →
        CTxMemPool.ApplyDeltas hash d f pool = (d, f)) ∧
      (CTxMemPool.ApplyDeltas hash 0 0
          (CTxMemPool.PrioritiseTransaction hash 5 1000
            (CTxMemPool.PrioritiseTransaction hash 5 1000 pool)) =
        ((CTxMemPool.ApplyDeltas hash 0 0 pool).1 + 10,
         (CTxMemPool.ApplyDeltas hash 0 0 pool).2 + 2000)) := by
  intro pool hash d f
  refine ⟨rfl, ?_, ?_, ?_⟩
  · simp [CTxMemPool.PrioritiseTransaction, findA_insertA]
  · intro h
    simp [CTxMemPool.ApplyDeltas, h]
  · simp only [CTxMemPool.ApplyDeltas, CTxMemPool.PrioritiseTransaction,
      findA_insertA, if_pos rfl]
    cases hf : findA pool.mapDeltas hash with
    | none =>
      simp [hf]
      norm_num
    | some deltas =>
      simp [hf]
      refine ⟨by ring, by ring⟩

/-- Witness for C8: the absent-entry case of ApplyDeltas at a concrete
input. -/
theorem c8_prioritise_applyDeltas_witness :
    findA emptyPool.mapDeltas 7 = none ∧
    CTxMemPool.ApplyDeltas 7 (3 : Rat) (4 : Int) emptyPool = (3, 4) :=
  ⟨rfl, (c8_prioritise_applyDeltas emptyPool 7 3 4).2.2.1 rfl⟩

/-! ### Claim C9: fee-estimator state I/O -/

/-- C9: WriteFeeEstimates emits the reader-required version then the writer
version before the estimator state; ReadFeeEstimates returns false and
leaves the pool (and the current estimator state) unchanged whenever the
stream's required version exceeds the client version, whenever the
estimator read fails, or whenever the stream is too short to hold the two
version ints; on success only the estimator state changes.  Both report
success as a boolean; the model functions are total (no exception escapes). -/
theorem c9_feeEstimates_io :
    ∀ (estimatorRead : List Int → Option (List Int)) (clientVersion : Int)
      (pool : MemPoolState) (estimator : List Int),
      (∀ estState, CTxMemPool.WriteFeeEstimates clientVersion estState =
        109900 :: clientVersion :: estState) ∧
      (∀ req wrote rest, req > clientVersion →
        CTxMemPool.ReadFeeEstimates estimatorRead clientVersion
          (req :: wrote :: rest) pool estimator = (false, pool, estimator)) ∧
      (∀ req wrote rest, ¬ req > clientVersion → estimatorRead rest = none →
        CTxMemPool.ReadFeeEstimates estimatorRead clientVersion
          (req :: wrote :: rest) pool estimator = (false, pool, estimator)) ∧
      (∀ req wrote rest est2, ¬ req > clientVersion →
        estimatorRead rest = some est2 →
        CTxMemPool.ReadFeeEstimates estimatorRead clientVersion
          (req :: wrote :: rest) pool estimator = (true, pool, est2)) ∧
      (CTxMemPool.ReadFeeEstimates estimatorRead clientVersion [] pool
        estimator = (false, pool, estimator)) ∧
      (∀ x, CTxMemPool.ReadFeeEstimates estimatorRead clientVersion [x] pool
        estimator = (false, pool, estimator)) := by
  intro estimatorRead clientVersion pool estimator
  refine ⟨fun estState => rfl, ?_, ?_, ?_, rfl, fun x => rfl⟩
  · intro req wrote rest h
    simp [CTxMemPool.ReadFeeEstimates, h]
  · intro req wrote rest h hread
    simp [CTxMemPool.ReadFeeEstimates, h, hread]
  · intro req wrote rest est2 h hread
    simp [CTxMemPool.ReadFeeEstimates, h, hread]

/-- Witness for C9: a concrete up-version stream is rejected with the pool
untouched. -/
theorem c9_feeEstimates_io_witness :
    (300000 : Int) > 170002 ∧
    CTxMemPool.ReadFeeEstimates (fun _ => none) 170002 [300000, 1, 2]
      emptyPool [] = (false, emptyPool, []) :=
  ⟨by norm_num,
   (c9_feeEstimates_io (fun _ => none) 170002 emptyPool []).2.1 300000 1 [2]
     (by norm_num)⟩

/-! ### Claim C10: unknown shielded type handling -/

theorem collectWithAnchor_sprout_ok (invalidRoot : Nat)
    (m : List (Nat × CTxMemPoolEntry)) :
    ∃ l, collectWithAnchor invalidRoot ShieldedType.sprout m = Except.ok l := by
  induction m with
  | nil => exact ⟨[], rfl⟩
  | cons p m ih =>
    obtain ⟨l, hl⟩ := ih
    refine ⟨if p.2.tx.vJoinSplit.any (fun js => js.anchor = invalidRoot)
            then p.2.tx :: l else l, ?_⟩
    simp [collectWithAnchor, hl, Except.map]

theorem collectWithAnchor_sapling_ok (invalidRoot : Nat)
    (m : List (Nat × CTxMemPoolEntry)) :
    ∃ l, collectWithAnchor invalidRoot ShieldedType.sapling m = Except.ok l := by
  induction m with
  | nil => exact ⟨[], rfl⟩
  | cons p m ih =>
    obtain ⟨l, hl⟩ := ih
    refine ⟨if p.2.tx.vShieldedSpend.any (fun sd => sd.anchor = invalidRoot)
            then p.2.tx :: l else l, ?_⟩
    simp [collectWithAnchor, hl, Except.map]

/-- Counterexample to C10 as stated: with an empty pool,
`removeWithAnchor` with a shielded type that is neither SPROUT nor SAPLING
does not throw at all — the throwing `default` branch sits inside the
per-transaction loop, which never runs — and it leaves the pool unchanged. -/
theorem c10_counterexample :
    CTxMemPool.removeWithAnchor 0 (ShieldedType.other 2) emptyPool =
      Except.ok emptyPool := rfl

/-- C10 (amended): for a type that is neither SPROUT nor SAPLING,
`nullifierExists` always throws `Unknown nullifier type`, while
`removeWithAnchor` throws `Unknown shielded type` exactly when the pool is
non-empty (the check happens inside the scan of the primary index); for
SPROUT and SAPLING neither function throws. -/
theorem c10_unknown_type_behavior :
    ∀ (pool : MemPoolState) (nf root v : Nat),
      (CTxMemPool.nullifierExists pool nf (ShieldedType.other v) =
        Except.error "Unknown nullifier type") ∧
      (CTxMemPool.removeWithAnchor root (ShieldedType.other v) pool =
          Except.error "Unknown shielded type" ↔ pool.mapTx ≠ []) ∧
      (∃ b, CTxMemPool.nullifierExists pool nf ShieldedType.sprout =
        Except.ok b) ∧
      (∃ b, CTxMemPool.nullifierExists pool nf ShieldedType.sapling =
        Except.ok b) ∧
      (∃ q, CTxMemPool.removeWithAnchor root ShieldedType.sprout pool =
        Except.ok q) ∧
      (∃ q, CTxMemPool.removeWithAnchor root ShieldedType.sapling pool =
        Except.ok q) := by
  intro pool nf root v
  refine ⟨rfl, ?_, ⟨_, rfl⟩, ⟨_, rfl⟩, ?_, ?_⟩
  · cases hm : pool.mapTx with
    | nil =>
      simp [CTxMemPool.removeWithAnchor, hm, collectWithAnchor, Except.map]
    | cons p m =>
      simp [CTxMemPool.removeWithAnchor, hm, collectWithAnchor, Except.map]
  · obtain ⟨l, hl⟩ := collectWithAnchor_sprout_ok root pool.mapTx
    refine ⟨l.foldl (fun p tx => (CTxMemPool.remove tx true p).1) pool, ?_⟩
    simp [CTxMemPool.removeWithAnchor, hl, Except.map]
  · obtain ⟨l, hl⟩ := collectWithAnchor_sapling_ok root pool.mapTx
    refine ⟨l.foldl (fun p tx => (CTxMemPool.remove tx true p).1) pool, ?_⟩
    simp [CTxMemPool.removeWithAnchor, hl, Except.map]

/-! ### Claim C5: nullifier index lockstep vs clear() -/

/-- A transaction spending one sprout nullifier (value 7), used to exhibit
the `clear()` nullifier leak. -/
def c5tx : CTransaction :=
  { hash := 3
    vin := []
    vout := []
    vJoinSplit := [{ anchor := 0, nullifiers := [7] }]
    vShieldedSpend := []
    isCoinImport := false
    isCoinBase := false
    reserveValueOut := 0 }

/-- Pool entry wrapping `c5tx`. -/
def c5entry : CTxMemPoolEntry :=
  { tx := c5tx
    nFee := 0
    nTxSize := 100
    nModSize := 100
    nUsageSize := 10
    nTime := 0
    dPriority := 0
    nHeight := 0
    hadNoDependencies := true
    spendsCoinbase := false
    hasReserve := false
    nBranchId := 0 }

/-- C5 (code bug): `clear()` empties the primary and spend indexes but not
the nullifier indexes, so after `addUnchecked` of a nullifier-spending
transaction followed by `clear()` — a state reached purely through the
public operations the claim names — nullifier 7 is still a key of the
sprout index while no pooled transaction spends it, and the pool's own
audit `checkNullifiers` condition evaluates to false on that state. -/
theorem c5_clear_nullifier_leak :
    (CTxMemPool.clear (CTxMemPool.addUnchecked 3 c5entry emptyPool)).mapTx
        = [] ∧
    findA (CTxMemPool.clear
        (CTxMemPool.addUnchecked 3 c5entry emptyPool)).mapSproutNullifiers 7
        = some c5tx ∧
    checkNullifierMap (CTxMemPool.clear
        (CTxMemPool.addUnchecked 3 c5entry emptyPool))
      (CTxMemPool.clear
        (CTxMemPool.addUnchecked 3 c5entry emptyPool)).mapSproutNullifiers
        = false := by
  refine ⟨rfl, ?_, ?_⟩ <;> decide

/-! ### Claim C6: GetPriority -/

theorem usub32_of_le {a b : Nat} (hb : b ≤ a) (ha : a < 4294967296) :
    usub32 a b = a - b := by
  unfold usub32
  rw [Nat.mod_eq_of_lt ha, Nat.mod_eq_of_lt (lt_of_le_of_lt hb ha)]
  have h1 : a + 4294967296 - b = (a - b) + 4294967296 := by omega
  rw [h1, Nat.add_mod_right, Nat.mod_eq_of_lt (by omega)]

theorem toInt32_usub32_one {h : Nat} (hlt : h < 2147483648) :
    toInt32 (usub32 h 1) = (h : Int) - 1 := by
  cases h with
  | zero => decide
  | succ n =>
    have hm : n + 1 < 4294967296 := by omega
    rw [usub32_of_le (by omega) hm]
    simp only [Nat.add_sub_cancel, toInt32]
    rw [Nat.mod_eq_of_lt (by omega)]
    rw [if_pos (by omega)]
    push_cast
    ring

/-- C6 (amended): GetPriority is a pure function of the entry, the height
and the currency-state provider, equal to
seed + (currentHeight − insertionHeight) × valueIn / modifiedSize with the
reserve term governed by the provider keyed at currentHeight − 1, for every
currentHeight at least the insertion height (and below 2^31); outside that
range the height difference is taken in 32-bit unsigned wraparound
arithmetic, not as a mathematical difference. -/
theorem c6_getPriority_formula :
    ∀ (provider : Int → Option CCurrencyState) (e : CTxMemPoolEntry)
      (currentHeight : Nat),
      e.nHeight ≤ currentHeight → currentHeight < 2147483648 →
      CTxMemPoolEntry.GetPriority provider e currentHeight =
        specGetPriority provider e currentHeight := by
  intro provider e h hge hlt
  have hm : h < 4294967296 := lt_trans hlt (by norm_num)
  unfold CTxMemPoolEntry.GetPriority specGetPriority
  rw [toInt32_usub32_one hlt, usub32_of_le hge hm]
  cases hr : e.hasReserve with
  | false =>
    simp only [hr, Bool.false_eq_true, if_false]
    push_cast [Nat.cast_sub hge]
    ring
  | true =>
    simp only [hr, if_true]
    cases hp : provider ((h : Int) - 1) with
    | none =>
      simp only [hp]
      push_cast [Nat.cast_sub hge]
      ring
    | some cs =>
      simp only [hp]
      push_cast [Nat.cast_sub hge]
      ring

/-- Entry used by the C6 counterexample and witness: inserted at height 1,
modified size 1, fee 1, no reserve. -/
def c6entry : CTxMemPoolEntry :=
  { tx :=
      { hash := 9, vin := [], vout := [], vJoinSplit := [],
        vShieldedSpend := [], isCoinImport := false, isCoinBase := false,
        reserveValueOut := 0 }
    nFee := 1
    nTxSize := 1
    nModSize := 1
    nUsageSize := 0
    nTime := 0
    dPriority := 0
    nHeight := 1
    hadNoDependencies := true
    spendsCoinbase := false
    hasReserve := false
    nBranchId := 0 }

/-- Counterexample to C6 as stated: at currentHeight = 0 with insertion
height 1, the source computes the age factor on unsigned 32-bit heights, so
it wraps to 2^32 − 1 instead of the claimed mathematical −1; the claimed
formula (specGetPriority) disagrees with the code. -/
theorem c6_counterexample :
    CTxMemPoolEntry.GetPriority (fun _ => none) c6entry 0 ≠
      specGetPriority (fun _ => none) c6entry 0 := by
  unfold CTxMemPoolEntry.GetPriority specGetPriority c6entry
  norm_num [usub32, toInt32, CTransaction.GetValueOut]

/-- Witness for C6: in range (currentHeight above the insertion height) the
code meets the claimed formula. -/
theorem c6_getPriority_formula_witness :
    c6entry.nHeight ≤ 5 ∧ (5 : Nat) < 2147483648 ∧
    CTxMemPoolEntry.GetPriority (fun _ => none) c6entry 5 =
      specGetPriority (fun _ => none) c6entry 5 :=
  ⟨by decide, by decide,
   c6_getPriority_formula (fun _ => none) c6entry 5 (by decide) (by decide)⟩

/-! ### Claim C7: coins-view overlay -/

/-- C7: GetCoins returns the pooled transaction's coins whenever the txid is
pooled (the pool wins over the backing view), and otherwise the backing
view's result with a fully pruned hit reported as a miss; GetNullifier for
each shielded type is true iff the nullifier is in the pool's index for
that type or spent per the backing view; HaveCoins is true iff the txid is
pooled or the backing view has coins. -/
theorem c7_coins_view_overlay :
    ∀ (pool : MemPoolState) (baseGetCoins : Nat → Option CCoins)
      (baseGetNullifier : Nat → ShieldedType → Bool)
      (baseHaveCoins : Nat → Bool) (txid nf : Nat),
      (∀ tx, CTxMemPool.lookup pool txid = some tx →
        CCoinsViewMemPool.GetCoins pool baseGetCoins txid =
          some (CCoins.ofTx tx MEMPOOL_HEIGHT)) ∧
      (CTxMemPool.lookup pool txid = none →
        CCoinsViewMemPool.GetCoins pool baseGetCoins txid =
          (baseGetCoins txid).bind
            (fun c => if c.IsPruned then none else some c)) ∧
      (CCoinsViewMemPool.GetNullifier pool baseGetNullifier nf
          ShieldedType.sprout =
        Except.ok (containsA pool.mapSproutNullifiers nf ||
          baseGetNullifier nf ShieldedType.sprout)) ∧
      (CCoinsViewMemPool.GetNullifier pool baseGetNullifier nf
          ShieldedType.sapling =
        Except.ok (containsA pool.mapSaplingNullifiers nf ||
          baseGetNullifier nf ShieldedType.sapling)) ∧
      (CCoinsViewMemPool.HaveCoins pool baseHaveCoins txid = true ↔
        (containsA pool.mapTx txid = true ∨ baseHaveCoins txid = true)) := by
  intro pool baseGetCoins baseGetNullifier baseHaveCoins txid nf
  refine ⟨?_, ?_, rfl, rfl, ?_⟩
  · intro tx htx
    simp [CCoinsViewMemPool.GetCoins, htx]
  · intro htx
    simp only [CCoinsViewMemPool.GetCoins, htx]
    cases hb : baseGetCoins txid with
    | none => rfl
    | some coins => rfl
  · simp [CCoinsViewMemPool.HaveCoins, CTxMemPool.existsTx]

/-- Transaction used by the C7 witness. -/
def c7tx : CTransaction :=
  { hash := 4, vin := [], vout := [{ nValue := 11 }], vJoinSplit := [],
    vShieldedSpend := [], isCoinImport := false, isCoinBase := false,
    reserveValueOut := 0 }

/-- Entry wrapping `c7tx`. -/
def c7entry : CTxMemPoolEntry :=
  { tx := c7tx, nFee := 0, nTxSize := 10, nModSize := 10, nUsageSize := 1,
    nTime := 0, dPriority := 0, nHeight := 0, hadNoDependencies := true,
    spendsCoinbase := false, hasReserve := false, nBranchId := 0 }

/-- Witness for C7: on a concrete pool the pooled-entry branch of GetCoins
fires (pool wins over a backing view that also has coins). -/
theorem c7_coins_view_overlay_witness :
    CTxMemPool.lookup (CTxMemPool.addUnchecked 4 c7entry emptyPool) 4 =
      some c7tx ∧
    CCoinsViewMemPool.GetCoins (CTxMemPool.addUnchecked 4 c7entry emptyPool)
      (fun _ => some (CCoins.ofTx c6entry.tx 0)) 4 =
      some (CCoins.ofTx c7tx MEMPOOL_HEIGHT) :=
  ⟨by decide,
   (c7_coins_view_overlay (CTxMemPool.addUnchecked 4 c7entry emptyPool)
     (fun _ => some (CCoins.ofTx c6entry.tx 0))
     (fun _ _ => false) (fun _ => false) 4 0).1 c7tx (by decide)⟩

/-! ### Unfolding lemmas for the removal work loop -/

theorem removeLoop_nil (f : Bool) (pool : MemPoolState) :
    removeLoop f pool [] = (pool, []) := by
  rw [removeLoop]

theorem removeLoop_cons_none {f : Bool} {pool : MemPoolState} {hash : Nat}
    {rest : List Nat} (h : findA pool.mapTx hash = none) :
    removeLoop f pool (hash :: rest) = removeLoop f pool rest := by
  rw [removeLoop]
  split
  · rfl
  · rename_i entry2 heq
    rw [h] at heq
    cases heq

theorem removeLoop_cons_some {f : Bool} {pool : MemPoolState} {hash : Nat}
    {rest : List Nat} {entry : CTxMemPoolEntry}
    (h : findA pool.mapTx hash = some entry) :
    removeLoop f pool (hash :: rest) =
      prependRemoved entry.tx
        (removeLoop f (eraseTx pool hash entry)
          (if f then rest ++ childHashes pool hash entry.tx.vout.length
           else rest)) := by
  rw [removeLoop]
  split
  · rename_i heq
    rw [h] at heq
    cases heq
  · rename_i entry2 heq
    rw [h] at heq
    cases heq
    rfl

/-! ### Claim C4: counter coherence -/

theorem eraseA_eq_self {K V : Type} [DecidableEq K] {m : List (K × V)} {k : K}
    (h : ∀ p ∈ m, p.1 ≠ k) : eraseA m k = m := by
  induction m with
  | nil => rfl
  | cons p m ih =>
    obtain ⟨k2, v2⟩ := p
    have hne : k2 ≠ k := h (k2, v2) (List.mem_cons_self _ _)
    simp only [eraseA, if_neg hne, List.cons.injEq, true_and]
    exact ih (fun q hq => h q (List.mem_cons_of_mem _ hq))

theorem findA_isSome_of_mem_keys {K V : Type} [DecidableEq K]
    {m : List (K × V)} {k : K} (h : k ∈ m.map Prod.fst) :
    ∃ v, findA m k = some v := by
  induction m with
  | nil => simp at h
  | cons p m ih =>
    obtain ⟨k2, v2⟩ := p
    by_cases h2 : k2 = k
    · exact ⟨v2, by simp [findA, h2]⟩
    · simp only [List.map_cons, List.mem_cons] at h
      rcases h with h | h
      · exact absurd h.symm h2
      · obtain ⟨v, hv⟩ := ih h
        exact ⟨v, by simp [findA, h2, hv]⟩

theorem not_mem_keys_of_findA_none {K V : Type} [DecidableEq K]
    {m : List (K × V)} {k : K} (h : findA m k = none) :
    k ∉ m.map Prod.fst := by
  intro hmem
  obtain ⟨v, hv⟩ := findA_isSome_of_mem_keys hmem
  rw [h] at hv
  cases hv

theorem perm_cons_eraseA {K V : Type} [DecidableEq K] {m : List (K × V)}
    {k : K} {v : V} (hn : NodupKeysA m) (hf : findA m k = some v) :
    m.Perm ((k, v) :: eraseA m k) := by
  induction m with
  | nil => simp [findA] at hf
  | cons p m ih =>
    obtain ⟨k2, v2⟩ := p
    simp only [NodupKeysA, List.map_cons, List.nodup_cons] at hn
    by_cases h2 : k2 = k
    · subst h2
      have hv : v2 = v := by simpa [findA] using hf
      subst hv
      have he : eraseA m k2 = m := by
        apply eraseA_eq_self
        intro q hq he
        exact hn.1 (List.mem_map.mpr ⟨q, hq, he⟩)
      simp [eraseA, he]
    · simp only [findA, if_neg h2] at hf
      simp only [eraseA, if_neg h2]
      exact List.Perm.trans (List.Perm.cons _ (ih hn.2 hf))
        (List.Perm.swap _ _ _)

/-- Sum of the stored serialized sizes over the primary index (the quantity
`totalTxSize` tracks). -/
def poolSizeSum (pool : MemPoolState) : Nat :=
  (pool.mapTx.map (fun p => p.2.nTxSize)).sum

/-- The bookkeeping facts C4 carries through every reachable state. -/
def C4Inv (pool : MemPoolState) : Prop :=
  NodupKeysA pool.mapTx ∧ pool.totalTxSize = poolSizeSum pool

theorem c4inv_eraseTx {pool : MemPoolState} {h : Nat} {e : CTxMemPoolEntry}
    (hf : findA pool.mapTx h = some e) (hInv : C4Inv pool) :
    C4Inv (eraseTx pool h e) := by
  obtain ⟨hn, hs⟩ := hInv
  refine ⟨nodupKeysA_eraseA hn h, ?_⟩
  have hperm := perm_cons_eraseA hn hf
  have hsum : poolSizeSum pool =
      e.nTxSize + ((eraseA pool.mapTx h).map (fun p => p.2.nTxSize)).sum := by
    unfold poolSizeSum
    rw [List.Perm.sum_eq (List.Perm.map (fun p => p.2.nTxSize) hperm)]
    simp
  show pool.totalTxSize - e.nTxSize = _
  unfold poolSizeSum
  simp only [eraseTx]
  omega

theorem c4inv_addUnchecked {pool : MemPoolState} {hash : Nat}
    {entry : CTxMemPoolEntry} (hfresh : containsA pool.mapTx hash = false)
    (hInv : C4Inv pool) : C4Inv (CTxMemPool.addUnchecked hash entry pool) := by
  obtain ⟨hn, hs⟩ := hInv
  have hnone : findA pool.mapTx hash = none :=
    (containsA_eq_false_iff _ _).mp hfresh
  constructor
  · show NodupKeysA (if containsA pool.mapTx hash then pool.mapTx
      else (hash, entry) :: pool.mapTx)
    rw [hfresh]
    simp only [Bool.false_eq_true, if_false, NodupKeysA, List.map_cons,
      List.nodup_cons]
    exact ⟨not_mem_keys_of_findA_none hnone, hn⟩
  · show pool.totalTxSize + entry.nTxSize =
      ((if containsA pool.mapTx hash then pool.mapTx
        else (hash, entry) :: pool.mapTx).map (fun p => p.2.nTxSize)).sum
    rw [hfresh]
    simp only [Bool.false_eq_true, if_false, List.map_cons, List.sum_cons]
    unfold poolSizeSum at hs
    omega

theorem removeLoop_updated (fRecursive : Bool) (pool : MemPoolState)
    (queue : List Nat) :
    (removeLoop fRecursive pool queue).1.nTransactionsUpdated =
      pool.nTransactionsUpdated +
        (removeLoop fRecursive pool queue).2.length := by
  induction pool, queue using removeLoop.induct fRecursive with
  | case1 pool => simp [removeLoop_nil]
  | case2 pool hash rest hfind ih =>
    rw [removeLoop_cons_none hfind]
    exact ih
  | case3 pool hash rest entry hfind ih =>
    rw [removeLoop_cons_some hfind]
    simp only [prependRemoved, List.length_cons]
    have h1 : (eraseTx pool hash entry).nTransactionsUpdated =
        pool.nTransactionsUpdated + 1 := rfl
    simp only [dite_eq_ite] at ih
    omega

theorem removeLoop_c4inv (fRecursive : Bool) (pool : MemPoolState)
    (queue : List Nat) (h : C4Inv pool) :
    C4Inv (removeLoop fRecursive pool queue).1 := by
  induction pool, queue using removeLoop.induct fRecursive with
  | case1 pool => simpa [removeLoop_nil] using h
  | case2 pool hash rest hfind ih =>
    rw [removeLoop_cons_none hfind]
    exact ih h
  | case3 pool hash rest entry hfind ih =>
    rw [removeLoop_cons_some hfind]
    exact ih (c4inv_eraseTx hfind h)


/-- A pool state and the number of structural changes (inserts plus actual
removals) that produced it, reachable from the freshly constructed pool by
`addUnchecked` and `remove` calls under the documented caller contract that
an already-pooled hash is never re-inserted (spec section 4.2 step 1). -/
inductive PoolTrace : MemPoolState → Nat → Prop where
  | init : PoolTrace emptyPool 0
  | add {pool : MemPoolState} {n : Nat} (hash : Nat) (entry : CTxMemPoolEntry)
      (htr : PoolTrace pool n)
      (hfresh : containsA pool.mapTx hash = false) :
      PoolTrace (CTxMemPool.addUnchecked hash entry pool) (n + 1)
  | remove {pool : MemPoolState} {n : Nat} (origTx : CTransaction)
      (fRecursive : Bool) (htr : PoolTrace pool n) :
      PoolTrace (CTxMemPool.remove origTx fRecursive pool).1
        (n + (CTxMemPool.remove origTx fRecursive pool).2.length)

/-- C4: in every state reached by a sequence of addUnchecked / remove calls
from the empty pool, totalTxSize equals the sum of the entries' stored
sizes and nTransactionsUpdated equals the number of structural changes
applied (one per insert plus one per transaction actually removed); the
counter never decreases: it advances by exactly one on every insert, by one
per transaction a remove call actually removes, and by at least one when
the removed transaction is pooled. -/
theorem c4_counter_coherence :
    (∀ (pool : MemPoolState) (n : Nat), PoolTrace pool n →
      pool.totalTxSize = poolSizeSum pool ∧
      pool.nTransactionsUpdated = n) ∧
    (∀ (hash : Nat) (entry : CTxMemPoolEntry) (pool : MemPoolState),
      (CTxMemPool.addUnchecked hash entry pool).nTransactionsUpdated =
        pool.nTransactionsUpdated + 1) ∧
    (∀ (origTx : CTransaction) (fRecursive : Bool) (pool : MemPoolState),
      (CTxMemPool.remove origTx fRecursive pool).1.nTransactionsUpdated =
        pool.nTransactionsUpdated +
          (CTxMemPool.remove origTx fRecursive pool).2.length) ∧
    (∀ (origTx : CTransaction) (fRecursive : Bool) (pool : MemPoolState),
      containsA pool.mapTx origTx.hash = true →
      1 ≤ (CTxMemPool.remove origTx fRecursive pool).2.length) := by
  refine ⟨?_, fun hash entry pool => rfl, ?_, ?_⟩
  · intro pool n htr
    have main : ∀ (p : MemPoolState) (m : Nat), PoolTrace p m →
        C4Inv p ∧ p.nTransactionsUpdated = m := by
      intro p m htr2
      induction htr2 with
      | init => exact ⟨⟨nodupKeysA_nil, rfl⟩, rfl⟩
      | add hash entry htr2 hfresh ih =>
        refine ⟨c4inv_addUnchecked hfresh ih.1, ?_⟩
        show _ + 1 = _ + 1
        rw [ih.2]
      | remove origTx fRecursive htr2 ih =>
        refine ⟨removeLoop_c4inv _ _ _ ih.1, ?_⟩
        show (removeLoop _ _ _).1.nTransactionsUpdated = _
        rw [removeLoop_updated, ih.2]
        rfl
    obtain ⟨⟨_, hsz⟩, hupd⟩ := main pool n htr
    exact ⟨hsz, hupd⟩
  · intro origTx fRecursive pool
    exact removeLoop_updated _ _ _
  · intro origTx fRecursive pool hmem
    obtain ⟨e, he⟩ := (containsA_eq_true_iff _ _).mp hmem
    unfold CTxMemPool.remove
    rw [if_neg (by simp [hmem])]
    rw [removeLoop_cons_some he]
    simp [prependRemoved]

/-- Entry used by the C4 witness. -/
def c4entry : CTxMemPoolEntry :=
  { tx :=
      { hash := 6, vin := [], vout := [], vJoinSplit := [],
        vShieldedSpend := [], isCoinImport := false, isCoinBase := false,
        reserveValueOut := 0 }
    nFee := 0
    nTxSize := 250
    nModSize := 250
    nUsageSize := 25
    nTime := 0
    dPriority := 0
    nHeight := 0
    hadNoDependencies := true
    spendsCoinbase := false
    hasReserve := false
    nBranchId := 0 }

/-- Witness for C4: one insert from the empty pool yields a trace of length
one with coherent counters. -/
theorem c4_counter_coherence_witness :
    PoolTrace (CTxMemPool.addUnchecked 6 c4entry emptyPool) 1 ∧
    (CTxMemPool.addUnchecked 6 c4entry emptyPool).totalTxSize =
      poolSizeSum (CTxMemPool.addUnchecked 6 c4entry emptyPool) ∧
    (CTxMemPool.addUnchecked 6 c4entry emptyPool).nTransactionsUpdated = 1 := by
  have htr : PoolTrace (CTxMemPool.addUnchecked 6 c4entry emptyPool) 1 :=
    PoolTrace.add 6 c4entry PoolTrace.init (by decide)
  exact ⟨htr, c4_counter_coherence.1 _ 1 htr⟩

/-! ### Folded erase / insert lemmas -/

section FoldOps

variable {K V A : Type} [DecidableEq K]

theorem foldl_eraseA_findA (L : List A) (f : A → K) (m : List (K × V)) (k : K) :
    findA (L.foldl (fun m2 a => eraseA m2 (f a)) m) k =
      if ∃ a ∈ L, f a = k then none else findA m k := by
  induction L generalizing m with
  | nil => simp
  | cons a L ih =>
    simp only [List.foldl_cons]
    rw [ih, findA_eraseA]
    by_cases h1 : f a = k
    · simp [h1]
    · by_cases h2 : ∃ b ∈ L, f b = k
      · simp [h1, h2]
      · simp [h1, h2, Ne.symm h1]

theorem foldl_eraseA_nodup (L : List A) (f : A → K) {m : List (K × V)}
    (h : NodupKeysA m) :
    NodupKeysA (L.foldl (fun m2 a => eraseA m2 (f a)) m) := by
  induction L generalizing m with
  | nil => exact h
  | cons a L ih => exact ih (nodupKeysA_eraseA h (f a))

theorem mem_foldl_eraseA {L : List A} {f : A → K} {m : List (K × V)}
    {p : K × V} (h : p ∈ L.foldl (fun m2 a => eraseA m2 (f a)) m) :
    p ∈ m ∧ ∀ a ∈ L, f a ≠ p.1 := by
  induction L generalizing m with
  | nil => exact ⟨h, by simp⟩
  | cons a L ih =>
    simp only [List.foldl_cons] at h
    obtain ⟨hmem, hrest⟩ := ih h
    obtain ⟨hm, hne⟩ := mem_eraseA hmem
    refine ⟨hm, ?_⟩
    intro b hb
    rcases List.mem_cons.mp hb with hb | hb
    · subst hb; exact fun he => hne he.symm
    · exact hrest b hb

theorem mem_insertA {m : List (K × V)} {k : K} {v : V} {p : K × V}
    (h : p ∈ insertA m k v) : p = (k, v) ∨ p ∈ m := by
  unfold insertA at h
  rcases List.mem_cons.mp h with h | h
  · exact Or.inl h
  · exact Or.inr (mem_eraseA h).1

theorem foldl_insertA_findA_notmem (L : List A) (f : A → K) (g : A → V)
    (m : List (K × V)) (k : K) (h : ∀ a ∈ L, f a ≠ k) :
    findA (L.foldl (fun m2 a => insertA m2 (f a) (g a)) m) k = findA m k := by
  induction L generalizing m with
  | nil => rfl
  | cons a L ih =>
    simp only [List.foldl_cons]
    rw [ih _ (fun b hb => h b (List.mem_cons_of_mem _ hb)), findA_insertA,
      if_neg (h a (List.mem_cons_self _ _))]

theorem foldl_insertA_findA_mem (L : List A) (f : A → K) (g : A → V) :
    ∀ (m : List (K × V)), (L.map f).Nodup → ∀ {a : A}, a ∈ L →
      findA (L.foldl (fun m2 b => insertA m2 (f b) (g b)) m) (f a) =
        some (g a) := by
  induction L with
  | nil =>
    intro m _ a ha
    simp at ha
  | cons b L ih =>
    intro m hnodup a ha
    simp only [List.map_cons, List.nodup_cons] at hnodup
    simp only [List.foldl_cons]
    rcases List.mem_cons.mp ha with ha | ha
    · subst ha
      have hne : ∀ c ∈ L, f c ≠ f a := by
        intro c hc he
        exact hnodup.1 (List.mem_map.mpr ⟨c, hc, he⟩)
      rw [foldl_insertA_findA_notmem _ f g _ _ hne, findA_insertA, if_pos rfl]
    · exact ih _ hnodup.2 ha

theorem mem_foldl_insertA {L : List A} {f : A → K} {g : A → V}
    {m : List (K × V)} {p : K × V}
    (h : p ∈ L.foldl (fun m2 a => insertA m2 (f a) (g a)) m) :
    p ∈ m ∨ ∃ a ∈ L, p = (f a, g a) := by
  induction L generalizing m with
  | nil => exact Or.inl h
  | cons a L ih =>
    simp only [List.foldl_cons] at h
    rcases ih h with h2 | h2
    · rcases mem_insertA h2 with h3 | h3
      · exact Or.inr ⟨a, List.mem_cons_self _ _, h3⟩
      · exact Or.inl h3
    · obtain ⟨b, hb, hp⟩ := h2
      exact Or.inr ⟨b, List.mem_cons_of_mem _ hb, hp⟩

theorem foldl_insertA_nodup (L : List A) (f : A → K) (g : A → V)
    {m : List (K × V)} (h : NodupKeysA m) :
    NodupKeysA (L.foldl (fun m2 a => insertA m2 (f a) (g a)) m) := by
  induction L generalizing m with
  | nil => exact h
  | cons a L ih => exact ih (nodupKeysA_insertA h (f a) (g a))

end FoldOps

/-! ### Claim C1: spend-index closure invariant -/

theorem entriesAtA_singleton_iff {K V : Type} [DecidableEq K]
    {m : List (K × V)} (hn : NodupKeysA m) (k : K) (v : V) :
    entriesAtA m k = [v] ↔ findA m k = some v := by
  rw [entriesAtA_eq_of_nodup hn]
  cases hf : findA m k <;> simp

theorem enum_prevouts (vin : List CTxIn) :
    vin.enum.map (fun pr => pr.2.prevout) = vin.map CTxIn.prevout := by
  rw [show (fun pr : Nat × CTxIn => pr.2.prevout) =
    CTxIn.prevout ∘ Prod.snd from rfl, ← List.map_map, List.enum_map_snd]

theorem snd_mem_of_mem_enum {vin : List CTxIn} {pr : Nat × CTxIn}
    (h : pr ∈ vin.enum) : pr.2 ∈ vin := by
  rw [← List.enum_map_snd vin]
  exact List.mem_map_of_mem _ h

/-- No two distinct pooled transactions spend a common outpoint (the
caller discipline C1 assumes, carried as an invariant because removal of
any pooled transaction erases the spend-index keys of all its inputs). -/
def SpendDisjoint (pool : MemPoolState) : Prop :=
  ∀ p ∈ pool.mapTx, ∀ q ∈ pool.mapTx, p.1 ≠ q.1 →
    ∀ a ∈ p.2.tx.vin, ∀ b ∈ q.2.tx.vin, a.prevout ≠ b.prevout

/-- The claim's invariant: the primary index is keyed by transaction hash
and, for every non-coin-import pooled transaction and every input position,
the spend index holds exactly one entry at that input's outpoint, pointing
back to that transaction and position. -/
def SpendIndexOK (pool : MemPoolState) : Prop :=
  ∀ p ∈ pool.mapTx, p.2.tx.hash = p.1 ∧
    (p.2.tx.isCoinImport = false →
      ∀ q ∈ p.2.tx.vin.enum,
        entriesAtA pool.mapNextTx q.2.prevout = [CInPoint.mk p.2.tx q.1])

/-- Every spend-index entry points to a pooled, non-coin-import transaction
whose input at the recorded position is the entry's key. -/
def SpendIndexSound (pool : MemPoolState) : Prop :=
  ∀ q ∈ pool.mapNextTx,
    CTxMemPool.lookup pool q.2.ptx.hash = some q.2.ptx ∧
    q.2.ptx.isCoinImport = false ∧
    (q.2.n, CTxIn.mk q.1) ∈ q.2.ptx.vin.enum

/-- The inductive spend-index invariant. -/
def Inv1 (pool : MemPoolState) : Prop :=
  NodupKeysA pool.mapTx ∧ NodupKeysA pool.mapNextTx ∧
    SpendDisjoint pool ∧ SpendIndexOK pool ∧ SpendIndexSound pool

/-- The claim's property by itself (the part of `SpendIndexOK` the claim
states, without the hash-keying fact). -/
def SpendClosure (pool : MemPoolState) : Prop :=
  ∀ p ∈ pool.mapTx, p.2.tx.isCoinImport = false →
    ∀ q ∈ p.2.tx.vin.enum,
      entriesAtA pool.mapNextTx q.2.prevout = [CInPoint.mk p.2.tx q.1]

instance (pool : MemPoolState) : Decidable (SpendClosure pool) := by
  unfold SpendClosure
  infer_instance

/-- A fresh-hash `addUnchecked` written out field by field. -/
theorem addUnchecked_eq_of_fresh {pool : MemPoolState} {hash : Nat}
    {entry : CTxMemPoolEntry} (hfresh : containsA pool.mapTx hash = false) :
    CTxMemPool.addUnchecked hash entry pool =
      { pool with
        mapTx := (hash, entry) :: pool.mapTx
        mapRecentlyAddedTx :=
          insertA pool.mapRecentlyAddedTx entry.tx.hash entry.tx
        nRecentlyAddedSequence := pool.nRecentlyAddedSequence + 1
        mapNextTx :=
          if entry.tx.isCoinImport then pool.mapNextTx
          else entry.tx.vin.enum.foldl
            (fun m p => insertA m p.2.prevout (CInPoint.mk entry.tx p.1))
            pool.mapNextTx
        mapSproutNullifiers :=
          entry.tx.vJoinSplit.foldl
            (fun m js => js.nullifiers.foldl
              (fun m nf => insertA m nf entry.tx) m)
            pool.mapSproutNullifiers
        mapSaplingNullifiers :=
          entry.tx.vShieldedSpend.foldl
            (fun m sd => insertA m sd.nullifier entry.tx)
            pool.mapSaplingNullifiers
        nTransactionsUpdated := pool.nTransactionsUpdated + 1
        totalTxSize := pool.totalTxSize + entry.nTxSize
        cachedInnerUsage := pool.cachedInnerUsage + entry.nUsageSize } := by
  unfold CTxMemPool.addUnchecked
  rw [hfresh]
  simp [findA]

theorem inv1_addUnchecked {pool : MemPoolState} {hash : Nat}
    {entry : CTxMemPoolEntry}
    (hkey : hash = entry.tx.hash)
    (hfresh : containsA pool.mapTx hash = false)
    (hdisj : ∀ p ∈ pool.mapTx, ∀ a ∈ p.2.tx.vin, ∀ b ∈ entry.tx.vin,
      a.prevout ≠ b.prevout)
    (hintra : (entry.tx.vin.map CTxIn.prevout).Nodup)
    (hInv : Inv1 pool) : Inv1 (CTxMemPool.addUnchecked hash entry pool) := by
  obtain ⟨hn1, hn2, hdj, hok, hsnd⟩ := hInv
  have hnone : findA pool.mapTx hash = none :=
    (containsA_eq_false_iff _ _).mp hfresh
  rw [addUnchecked_eq_of_fresh hfresh]
  have hnodup2 : NodupKeysA
      (if entry.tx.isCoinImport then pool.mapNextTx
       else entry.tx.vin.enum.foldl
         (fun m p => insertA m p.2.prevout (CInPoint.mk entry.tx p.1))
         pool.mapNextTx) := by
    by_cases himp : entry.tx.isCoinImport
    · simpa [himp] using hn2
    · simp only [himp, Bool.false_eq_true, if_false]
      exact foldl_insertA_nodup _ _ _ hn2
  -- lookups in the extended primary index
  have hlook : ∀ t : Nat, t ≠ hash →
      findA ((hash, entry) :: pool.mapTx) t = findA pool.mapTx t := by
    intro t ht
    simp [findA, Ne.symm ht]
  have hlookNew : findA ((hash, entry) :: pool.mapTx) hash = some entry := by
    simp [findA]
  -- spend-index lookups at outpoints not spent by the new transaction
  have hfindOld : ∀ k : COutPoint, (∀ b ∈ entry.tx.vin, b.prevout ≠ k) →
      findA (if entry.tx.isCoinImport then pool.mapNextTx
        else entry.tx.vin.enum.foldl
          (fun m p => insertA m p.2.prevout (CInPoint.mk entry.tx p.1))
          pool.mapNextTx) k = findA pool.mapNextTx k := by
    intro k hk
    by_cases himp : entry.tx.isCoinImport
    · simp [himp]
    · simp only [himp, Bool.false_eq_true, if_false]
      exact foldl_insertA_findA_notmem _ _ _ _ _
        (fun pr hpr => hk pr.2 (snd_mem_of_mem_enum hpr))
  refine ⟨?_, hnodup2, ?_, ?_, ?_⟩
  · exact List.Nodup.cons (not_mem_keys_of_findA_none hnone) hn1
  · -- SpendDisjoint
    intro p hp q hq hne a ha b hb
    rcases List.mem_cons.mp hp with hp | hp <;>
      rcases List.mem_cons.mp hq with hq | hq
    · subst hp; subst hq
      exact absurd rfl hne
    · subst hp
      exact Ne.symm (hdisj q hq b hb a ha)
    · subst hq
      exact hdisj p hp a ha b hb
    · exact hdj p hp q hq hne a ha b hb
  · -- SpendIndexOK
    intro p hp
    rcases List.mem_cons.mp hp with hp | hp
    · subst hp
      refine ⟨hkey.symm, ?_⟩
      intro himp q hq
      have himp2 : entry.tx.isCoinImport = false := himp
      rw [entriesAtA_singleton_iff hnodup2]
      have hnodupKeys : (entry.tx.vin.enum.map
          (fun pr => pr.2.prevout)).Nodup := by
        rw [enum_prevouts]; exact hintra
      have hgoal := foldl_insertA_findA_mem entry.tx.vin.enum
        (fun pr => pr.2.prevout) (fun pr => CInPoint.mk entry.tx pr.1)
        pool.mapNextTx hnodupKeys hq
      simpa [himp2] using hgoal
    · have hold := hok p hp
      refine ⟨hold.1, ?_⟩
      intro himp q hq
      rw [entriesAtA_singleton_iff hnodup2, hfindOld _
        (fun b hb => Ne.symm (hdisj p hp q.2 (snd_mem_of_mem_enum hq) b hb)),
        ← entriesAtA_singleton_iff hn2]
      exact hold.2 himp q hq
  · -- SpendIndexSound
    intro q hq
    by_cases himp : entry.tx.isCoinImport
    · rw [if_pos himp] at hq
      obtain ⟨hl, hi, hm⟩ := hsnd q hq
      refine ⟨?_, hi, hm⟩
      unfold CTxMemPool.lookup at hl ⊢
      have hne : q.2.ptx.hash ≠ hash := by
        intro he
        rw [he] at hl
        rw [hnone] at hl
        cases hl
      rw [hlook _ hne]
      exact hl
    · rw [if_neg himp] at hq
      rcases mem_foldl_insertA hq with hq2 | hq2
      · obtain ⟨hl, hi, hm⟩ := hsnd q hq2
        refine ⟨?_, hi, hm⟩
        unfold CTxMemPool.lookup at hl ⊢
        have hne : q.2.ptx.hash ≠ hash := by
          intro he
          rw [he] at hl
          rw [hnone] at hl
          cases hl
        rw [hlook _ hne]
        exact hl
      · obtain ⟨pr, hpr, hqe⟩ := hq2
        subst hqe
        refine ⟨?_, by simpa using himp, ?_⟩
        · unfold CTxMemPool.lookup
          rw [← hkey, hlookNew]
          rfl
        · simpa using hpr

theorem inv1_eraseTx {pool : MemPoolState} {h : Nat} {e : CTxMemPoolEntry}
    (hf : findA pool.mapTx h = some e) (hInv : Inv1 pool) :
    Inv1 (eraseTx pool h e) := by
  obtain ⟨hn1, hn2, hdj, hok, hsnd⟩ := hInv
  have hmem : (h, e) ∈ pool.mapTx := findA_mem hf
  have hmapTx : (eraseTx pool h e).mapTx = eraseA pool.mapTx h := rfl
  have hmapNext : (eraseTx pool h e).mapNextTx =
      e.tx.vin.foldl (fun m txin => eraseA m txin.prevout) pool.mapNextTx :=
    rfl
  refine ⟨?_, ?_, ?_, ?_, ?_⟩
  · rw [hmapTx]
    exact nodupKeysA_eraseA hn1 h
  · rw [hmapNext]
    exact foldl_eraseA_nodup _ _ hn2
  · intro p hp q hq hne a ha b hb
    rw [hmapTx] at hp hq
    exact hdj p (mem_eraseA hp).1 q (mem_eraseA hq).1 hne a ha b hb
  · intro p hp
    rw [hmapTx] at hp
    obtain ⟨hpm, hpne⟩ := mem_eraseA hp
    obtain ⟨hhash, hrest⟩ := hok p hpm
    refine ⟨hhash, ?_⟩
    intro himp q hq
    rw [hmapNext, entriesAtA_singleton_iff (foldl_eraseA_nodup _ _ hn2),
      foldl_eraseA_findA, if_neg ?hno]
    case hno =>
      rintro ⟨txin, htxin, hpv⟩
      exact hdj p hpm (h, e) hmem hpne q.2 (snd_mem_of_mem_enum hq)
        txin htxin hpv.symm
    exact (entriesAtA_singleton_iff hn2 _ _).mp (hrest himp q hq)
  · intro q hq
    rw [hmapNext] at hq
    obtain ⟨hqm, hqne⟩ := mem_foldl_eraseA hq
    obtain ⟨hl, hi, hm⟩ := hsnd q hqm
    have hne : q.2.ptx.hash ≠ h := by
      intro he
      unfold CTxMemPool.lookup at hl
      rw [he, hf] at hl
      have hl : e.tx = q.2.ptx := by simpa using hl
      have hin : CTxIn.mk q.1 ∈ e.tx.vin := by
        have hin2 : CTxIn.mk q.1 ∈ q.2.ptx.vin := snd_mem_of_mem_enum hm
        rw [← hl] at hin2
        exact hin2
      exact hqne (CTxIn.mk q.1) hin rfl
    refine ⟨?_, hi, hm⟩
    unfold CTxMemPool.lookup at hl ⊢
    rw [hmapTx, findA_eraseA, if_neg hne]
    exact hl

theorem inv1_removeLoop (fRecursive : Bool) (pool : MemPoolState)
    (queue : List Nat) (h : Inv1 pool) :
    Inv1 (removeLoop fRecursive pool queue).1 := by
  induction pool, queue using removeLoop.induct fRecursive with
  | case1 pool => simpa [removeLoop_nil] using h
  | case2 pool hash rest hfind ih =>
    rw [removeLoop_cons_none hfind]
    exact ih h
  | case3 pool hash rest entry hfind ih =>
    rw [removeLoop_cons_some hfind]
    exact ih (inv1_eraseTx hfind h)

theorem inv1_remove (origTx : CTransaction) (fRecursive : Bool)
    (pool : MemPoolState) (h : Inv1 pool) :
    Inv1 (CTxMemPool.remove origTx fRecursive pool).1 :=
  inv1_removeLoop _ _ _ h

/-- Pool states reachable from the empty pool under exactly the caller
assumptions C1 states: the inserted hash is the entry's transaction hash
and is not already pooled, and no two (distinct) transactions spending a
common outpoint are ever simultaneously inserted. -/
inductive ReachableStated : MemPoolState → Prop where
  | init : ReachableStated emptyPool
  | add {pool : MemPoolState} (hash : Nat) (entry : CTxMemPoolEntry)
      (h : ReachableStated pool)
      (hkey : hash = entry.tx.hash)
      (hfresh : containsA pool.mapTx hash = false)
      (hdisj : ∀ p ∈ pool.mapTx, ∀ a ∈ p.2.tx.vin, ∀ b ∈ entry.tx.vin,
        a.prevout ≠ b.prevout) :
      ReachableStated (CTxMemPool.addUnchecked hash entry pool)
  | remove {pool : MemPoolState} (origTx : CTransaction) (fRecursive : Bool)
      (h : ReachableStated pool) :
      ReachableStated (CTxMemPool.remove origTx fRecursive pool).1

/-- Pool states reachable under the stated caller assumptions plus the
amendment: an inserted transaction also never repeats an outpoint among its
own inputs. -/
inductive ReachableAmended : MemPoolState → Prop where
  | init : ReachableAmended emptyPool
  | add {pool : MemPoolState} (hash : Nat) (entry : CTxMemPoolEntry)
      (h : ReachableAmended pool)
      (hkey : hash = entry.tx.hash)
      (hfresh : containsA pool.mapTx hash = false)
      (hdisj : ∀ p ∈ pool.mapTx, ∀ a ∈ p.2.tx.vin, ∀ b ∈ entry.tx.vin,
        a.prevout ≠ b.prevout)
      (hintra : (entry.tx.vin.map CTxIn.prevout).Nodup) :
      ReachableAmended (CTxMemPool.addUnchecked hash entry pool)
  | remove {pool : MemPoolState} (origTx : CTransaction) (fRecursive : Bool)
      (h : ReachableAmended pool) :
      ReachableAmended (CTxMemPool.remove origTx fRecursive pool).1

theorem reachableAmended_inv1 {pool : MemPoolState}
    (h : ReachableAmended pool) : Inv1 pool := by
  induction h with
  | init =>
    refine ⟨nodupKeysA_nil, nodupKeysA_nil, ?_, ?_, ?_⟩ <;>
      intro p hp <;> cases hp
  | add hash entry h hkey hfresh hdisj hintra ih =>
    exact inv1_addUnchecked hkey hfresh hdisj hintra ih
  | remove origTx fRecursive h ih =>
    exact inv1_remove _ _ _ ih

/-- C1 (amended): in every pool state reachable from the empty pool via
addUnchecked and remove — assuming callers never addUnchecked an
already-present hash, never have two transactions spending a common
outpoint pooled simultaneously, and (the amendment) never insert a
transaction that repeats an outpoint among its own inputs — the Spend Index
holds, for every transparent input of every pooled non-coin-import
transaction, exactly one entry at that input's outpoint, and it points back
to exactly that transaction and input position. -/
theorem c1_spend_index_closure :
    ∀ (pool : MemPoolState), ReachableAmended pool → SpendClosure pool := by
  intro pool h p hp himp q hq
  exact ((reachableAmended_inv1 h).2.2.2.1 p hp).2 himp q hq

/-- Transaction spending the same outpoint twice, used to refute C1 as
stated. -/
def c1ctx : CTransaction :=
  { hash := 11
    vin := [{ prevout := { hash := 5, n := 0 } },
            { prevout := { hash := 5, n := 0 } }]
    vout := []
    vJoinSplit := []
    vShieldedSpend := []
    isCoinImport := false
    isCoinBase := false
    reserveValueOut := 0 }

/-- Entry wrapping `c1ctx`. -/
def c1centry : CTxMemPoolEntry :=
  { tx := c1ctx, nFee := 0, nTxSize := 10, nModSize := 10, nUsageSize := 1,
    nTime := 0, dPriority := 0, nHeight := 0, hadNoDependencies := true,
    spendsCoinbase := false, hasReserve := false, nBranchId := 0 }

/-- Counterexample to C1 as stated: a single transaction that spends the
same outpoint at two input positions is inserted into the empty pool.  The
claim's stated assumptions (fresh hash; no two transactions spending a
common outpoint) are satisfied, yet the spend-index entry for input 0's
outpoint points at input position 1, so the closure invariant fails. -/
theorem c1_counterexample :
    ReachableStated (CTxMemPool.addUnchecked 11 c1centry emptyPool) ∧
    ¬ SpendClosure (CTxMemPool.addUnchecked 11 c1centry emptyPool) :=
  ⟨ReachableStated.add 11 c1centry ReachableStated.init rfl (by decide)
      (by decide),
   by decide⟩

/-- Transaction used by the C1 witness. -/
def c1wtx : CTransaction :=
  { hash := 21
    vin := [{ prevout := { hash := 20, n := 0 } }]
    vout := []
    vJoinSplit := []
    vShieldedSpend := []
    isCoinImport := false
    isCoinBase := false
    reserveValueOut := 0 }

/-- Entry wrapping `c1wtx`. -/
def c1wentry : CTxMemPoolEntry :=
  { tx := c1wtx, nFee := 0, nTxSize := 10, nModSize := 10, nUsageSize := 1,
    nTime := 0, dPriority := 0, nHeight := 0, hadNoDependencies := true,
    spendsCoinbase := false, hasReserve := false, nBranchId := 0 }

/-- Witness for C1: the amended invariant at a concrete reachable pool. -/
theorem c1_spend_index_closure_witness :
    ReachableAmended (CTxMemPool.addUnchecked 21 c1wentry emptyPool) ∧
    SpendClosure (CTxMemPool.addUnchecked 21 c1wentry emptyPool) := by
  have htr : ReachableAmended (CTxMemPool.addUnchecked 21 c1wentry emptyPool) :=
    ReachableAmended.add 21 c1wentry ReachableAmended.init rfl (by decide)
      (by decide) (by decide)
  exact ⟨htr, c1_spend_index_closure _ htr⟩

/-! ### Claim C2: recursive removal -/

/-- `ch` is a pooled, non-coin-import transaction that directly spends an
existing output of the pooled transaction `ph` (the child relation the
claim's transitive descendants are built from; coin-import transactions
populate no spend-index entries, so the walk cannot see them). -/
def childRel (pool : MemPoolState) (ph ch : Nat) : Prop :=
  ∃ ep ec, findA pool.mapTx ph = some ep ∧ findA pool.mapTx ch = some ec ∧
    ec.tx.isCoinImport = false ∧
    ∃ txin ∈ ec.tx.vin, txin.prevout.hash = ph ∧
      txin.prevout.n < ep.tx.vout.length

/-- Transitive pooled descendancy (reflexive, so `PoolDesc pool h h`). -/
def PoolDesc (pool : MemPoolState) : Nat → Nat → Prop :=
  Relation.ReflTransGen (childRel pool)

/-- Every lookup the final state answers positively, the initial state
answers identically (states obtained from removals only). -/
def SubPool (p q : MemPoolState) : Prop :=
  (∀ h e, findA p.mapTx h = some e → findA q.mapTx h = some e) ∧
  (∀ k v, findA p.mapNextTx k = some v → findA q.mapNextTx k = some v) ∧
  (∀ nf t, findA p.mapSproutNullifiers nf = some t →
    findA q.mapSproutNullifiers nf = some t) ∧
  (∀ nf t, findA p.mapSaplingNullifiers nf = some t →
    findA q.mapSaplingNullifiers nf = some t)

theorem subPool_refl (p : MemPoolState) : SubPool p p :=
  ⟨fun _ _ h => h, fun _ _ h => h, fun _ _ h => h, fun _ _ h => h⟩

theorem subPool_trans {p q r : MemPoolState} (h1 : SubPool p q)
    (h2 : SubPool q r) : SubPool p r :=
  ⟨fun a b h => h2.1 a b (h1.1 a b h),
   fun a b h => h2.2.1 a b (h1.2.1 a b h),
   fun a b h => h2.2.2.1 a b (h1.2.2.1 a b h),
   fun a b h => h2.2.2.2 a b (h1.2.2.2 a b h)⟩

theorem findA_some_of_foldl_eraseA {K V A : Type} [DecidableEq K]
    {L : List A} {f : A → K} {m : List (K × V)} {k : K} {v : V}
    (h : findA (L.foldl (fun m2 a => eraseA m2 (f a)) m) k = some v) :
    findA m k = some v := by
  rw [foldl_eraseA_findA] at h
  split at h
  · cases h
  · exact h

theorem sprout_erase_flatten (tx : CTransaction)
    (m : List (Nat × CTransaction)) :
    tx.vJoinSplit.foldl
      (fun m2 js => js.nullifiers.foldl (fun m3 nf => eraseA m3 nf) m2) m =
    (sproutNullifiersOf tx).foldl (fun m2 nf => eraseA m2 nf) m := by
  unfold sproutNullifiersOf
  generalize tx.vJoinSplit = L
  induction L generalizing m with
  | nil => rfl
  | cons js L ih =>
    simp only [List.foldl_cons, List.map_cons, List.flatten_cons,
      List.foldl_append]
    exact ih _

theorem eraseTx_subPool (pool : MemPoolState) (h : Nat)
    (e : CTxMemPoolEntry) : SubPool (eraseTx pool h e) pool := by
  refine ⟨?_, ?_, ?_, ?_⟩
  · intro a b hab
    have : findA (eraseA pool.mapTx h) a = some b := hab
    rw [findA_eraseA] at this
    split at this
    · cases this
    · exact this
  · intro a b hab
    exact findA_some_of_foldl_eraseA (f := CTxIn.prevout) hab
  · intro a b hab
    have hab2 : findA ((sproutNullifiersOf e.tx).foldl
        (fun m2 nf => eraseA m2 nf) pool.mapSproutNullifiers) a = some b := by
      rw [← sprout_erase_flatten]
      exact hab
    exact findA_some_of_foldl_eraseA (f := fun nf => nf) hab2
  · intro a b hab
    exact findA_some_of_foldl_eraseA (f := SpendDescription.nullifier) hab

theorem exists_enum_of_mem {l : List CTxIn} {a : CTxIn} (h : a ∈ l) :
    ∃ i, (i, a) ∈ l.enum := by
  rw [← List.enum_map_snd l] at h
  obtain ⟨pr, hpr, he⟩ := List.mem_map.mp h
  refine ⟨pr.1, ?_⟩
  rw [← he]
  simpa using hpr

/-- The children the walk collects through the spend index are exactly the
`childRel`-children, given the invariant. -/
theorem childHashes_spec {pool : MemPoolState} (hInv : Inv1 pool) {h0 : Nat}
    {e : CTxMemPoolEntry} (hf : findA pool.mapTx h0 = some e) (c : Nat) :
    c ∈ childHashes pool h0 e.tx.vout.length ↔ childRel pool h0 c := by
  obtain ⟨hn1, hn2, hdj, hok, hsnd⟩ := hInv
  unfold childHashes
  rw [List.mem_filterMap]
  constructor
  · rintro ⟨i, hi, hopt⟩
    rw [List.mem_range] at hi
    cases hfind : findA pool.mapNextTx (COutPoint.mk h0 i) with
    | none => rw [hfind] at hopt; cases hopt
    | some ip =>
      rw [hfind] at hopt
      have hopt : ip.ptx.hash = c := by simpa using hopt
      obtain ⟨hl, himp, hm⟩ := hsnd (COutPoint.mk h0 i, ip)
        (findA_mem hfind)
      unfold CTxMemPool.lookup at hl
      rw [Option.map_eq_some'] at hl
      obtain ⟨ec, hec, hectx⟩ := hl
      refine ⟨e, ec, hf, ?_, ?_, CTxIn.mk (COutPoint.mk h0 i),
        ?_, rfl, hi⟩
      · rw [← hopt]
        exact hec
      · rw [hectx]
        exact himp
      · rw [hectx]
        exact snd_mem_of_mem_enum hm
  · rintro ⟨ep, ec, hep, hec, himp, txin, htxin, hhash, hn⟩
    have hepe : ep = e := by
      rw [hf] at hep
      cases hep
      rfl
    subst hepe
    obtain ⟨i, hi⟩ := exists_enum_of_mem htxin
    have hment := ((hok (c, ec) (findA_mem hec)).2 himp) (i, txin) hi
    have hfind : findA pool.mapNextTx txin.prevout =
        some (CInPoint.mk ec.tx i) :=
      (entriesAtA_singleton_iff hn2 _ _).mp hment
    refine ⟨txin.prevout.n, List.mem_range.mpr hn, ?_⟩
    have hpv : COutPoint.mk h0 txin.prevout.n = txin.prevout := by
      rw [← hhash]
    rw [hpv, hfind]
    show some ec.tx.hash = some c
    rw [(hok (c, ec) (findA_mem hec)).1]

/-- Chain-avoidance: a reflexive-transitive chain ending away from `x`
either avoids `x` entirely or has a final segment that starts at an
`r`-successor of `x` and then avoids `x`. -/
theorem rtg_avoid {α : Type} {r : α → α → Prop} (x : α) {a b : α}
    (h : Relation.ReflTransGen r a b) (hb : b ≠ x) :
    (a ≠ x ∧ Relation.ReflTransGen
      (fun u v => r u v ∧ u ≠ x ∧ v ≠ x) a b) ∨
    (∃ c, r x c ∧ c ≠ x ∧ Relation.ReflTransGen
      (fun u v => r u v ∧ u ≠ x ∧ v ≠ x) c b) := by
  induction h using Relation.ReflTransGen.head_induction_on with
  | refl => exact Or.inl ⟨hb, Relation.ReflTransGen.refl⟩
  | head h1 h2 ih =>
    rename_i a c
    by_cases hax : a = x
    · subst hax
      rcases ih with ⟨hcx, hchain⟩ | ⟨d, hd, hdx, hchain⟩
      · exact Or.inr ⟨c, h1, hcx, hchain⟩
      · exact Or.inr ⟨d, hd, hdx, hchain⟩
    · by_cases hcx : c = x
      · rcases ih with ⟨hcx2, _⟩ | ⟨d, hd, hdx, hchain⟩
        · exact absurd hcx hcx2
        · exact Or.inr ⟨d, hd, hdx, hchain⟩
      · rcases ih with ⟨_, hchain⟩ | ⟨d, hd, hdx, hchain⟩
        · exact Or.inl ⟨hax, hchain.head ⟨h1, hax, hcx⟩⟩
        · exact Or.inr ⟨d, hd, hdx, hchain⟩

theorem findA_eraseTx_mapTx (pool : MemPoolState) (q0 : Nat)
    (e : CTxMemPoolEntry) (x : Nat) :
    findA (eraseTx pool q0 e).mapTx x =
      if x = q0 then none else findA pool.mapTx x := by
  show findA (eraseA pool.mapTx q0) x = _
  rw [findA_eraseA]

theorem containsA_eraseTx (pool : MemPoolState) (q0 : Nat)
    (e : CTxMemPoolEntry) (x : Nat) :
    containsA (eraseTx pool q0 e).mapTx x = true ↔
      (containsA pool.mapTx x = true ∧ x ≠ q0) := by
  rw [containsA_eq_true_iff, containsA_eq_true_iff]
  constructor
  · rintro ⟨v, hv⟩
    rw [findA_eraseTx_mapTx] at hv
    split at hv
    · cases hv
    · rename_i hne
      exact ⟨⟨v, hv⟩, hne⟩
  · rintro ⟨⟨v, hv⟩, hne⟩
    refine ⟨v, ?_⟩
    rw [findA_eraseTx_mapTx, if_neg hne]
    exact hv

theorem childRel_eraseTx {pool : MemPoolState} {q0 : Nat}
    {e : CTxMemPoolEntry} (a b : Nat) :
    childRel (eraseTx pool q0 e) a b ↔
      (childRel pool a b ∧ a ≠ q0 ∧ b ≠ q0) := by
  unfold childRel
  constructor
  · rintro ⟨ep, ec, hep, hec, himp, txin, htxin, hh, hn⟩
    rw [findA_eraseTx_mapTx] at hep hec
    by_cases hax : a = q0
    · rw [if_pos hax] at hep
      cases hep
    · by_cases hbx : b = q0
      · rw [if_pos hbx] at hec
        cases hec
      · rw [if_neg hax] at hep
        rw [if_neg hbx] at hec
        exact ⟨⟨ep, ec, hep, hec, himp, txin, htxin, hh, hn⟩, hax, hbx⟩
  · rintro ⟨⟨ep, ec, hep, hec, himp, txin, htxin, hh, hn⟩, hax, hbx⟩
    refine ⟨ep, ec, ?_, ?_, himp, txin, htxin, hh, hn⟩
    · rw [findA_eraseTx_mapTx, if_neg hax]
      exact hep
    · rw [findA_eraseTx_mapTx, if_neg hbx]
      exact hec

theorem poolDesc_of_unpooled {pool : MemPoolState} {h0 h2 : Nat}
    (hf : findA pool.mapTx h0 = none) (hd : PoolDesc pool h0 h2) :
    h2 = h0 := by
  rcases Relation.ReflTransGen.cases_head hd with he | ⟨c, hc, hrest⟩
  · exact he.symm
  · obtain ⟨ep, ec, hep, hrest2⟩ := hc
    rw [hf] at hep
    cases hep

/-- One walk step, as a set equation: the pooled transactions reachable
from the queue `q0 :: rest` in `pool` are `q0` itself together with those
reachable, after erasing `q0`, from `rest` plus `q0`'s pooled children. -/
theorem reachSet_step {pool : MemPoolState} (hInv : Inv1 pool) {q0 : Nat}
    {e : CTxMemPoolEntry} (hf : findA pool.mapTx q0 = some e)
    (rest : List Nat) (h2 : Nat) :
    (containsA pool.mapTx h2 = true ∧ ∃ q ∈ q0 :: rest, PoolDesc pool q h2)
    ↔ (h2 = q0 ∨
      (containsA (eraseTx pool q0 e).mapTx h2 = true ∧
       ∃ q ∈ rest ++ childHashes pool q0 e.tx.vout.length,
         PoolDesc (eraseTx pool q0 e) q h2)) := by
  constructor
  · rintro ⟨hp, q, hq, hdesc⟩
    by_cases hh : h2 = q0
    · exact Or.inl hh
    · refine Or.inr ⟨(containsA_eraseTx pool q0 e h2).mpr ⟨hp, hh⟩, ?_⟩
      rcases rtg_avoid q0 hdesc hh with ⟨hqx, hchain⟩ |
        ⟨c, hc, hcx, hchain⟩
      · have hchain2 : PoolDesc (eraseTx pool q0 e) q h2 :=
          Relation.ReflTransGen.mono
            (fun a b hab =>
              (childRel_eraseTx a b).mpr ⟨hab.1, hab.2.1, hab.2.2⟩) hchain
        have hqrest : q ∈ rest := by
          rcases List.mem_cons.mp hq with h | h
          · exact absurd h hqx
          · exact h
        exact ⟨q, List.mem_append.mpr (Or.inl hqrest), hchain2⟩
      · have hcch : c ∈ childHashes pool q0 e.tx.vout.length :=
          (childHashes_spec hInv hf c).mpr hc
        have hchain2 : PoolDesc (eraseTx pool q0 e) c h2 :=
          Relation.ReflTransGen.mono
            (fun a b hab =>
              (childRel_eraseTx a b).mpr ⟨hab.1, hab.2.1, hab.2.2⟩) hchain
        exact ⟨c, List.mem_append.mpr (Or.inr hcch), hchain2⟩
  · rintro (hh | ⟨hp2, q, hq, hdesc2⟩)
    · subst hh
      exact ⟨(containsA_eq_true_iff _ _).mpr ⟨e, hf⟩, h2,
        List.mem_cons_self _ _, Relation.ReflTransGen.refl⟩
    · obtain ⟨hp, hne⟩ := (containsA_eraseTx pool q0 e h2).mp hp2
      have hdesc : PoolDesc pool q h2 :=
        Relation.ReflTransGen.mono
          (fun a b hab => ((childRel_eraseTx a b).mp hab).1) hdesc2
      rcases List.mem_append.mp hq with hq | hq
      · exact ⟨hp, q, List.mem_cons_of_mem _ hq, hdesc⟩
      · have hc : childRel pool q0 q := (childHashes_spec hInv hf q).mp hq
        exact ⟨hp, q0, List.mem_cons_self _ _,
          Relation.ReflTransGen.head hc hdesc⟩

/-- Full specification of the recursive removal work loop: the final pool
keeps exactly the transactions not reachable from the queue, the appended
`removed` list enumerates exactly the reachable pooled transactions with no
hash repeated, the invariant is preserved, and the final state only ever
answers lookups the initial state answered. -/
theorem removeLoop_recursive_spec :
    ∀ (pool : MemPoolState) (queue : List Nat), Inv1 pool →
      (∀ h2, containsA (removeLoop true pool queue).1.mapTx h2 = true ↔
        (containsA pool.mapTx h2 = true ∧
          ¬ ∃ q ∈ queue, PoolDesc pool q h2)) ∧
      (∀ t, t ∈ (removeLoop true pool queue).2 ↔
        (∃ e, findA pool.mapTx t.hash = some e ∧ e.tx = t ∧
          ∃ q ∈ queue, PoolDesc pool q t.hash)) ∧
      ((removeLoop true pool queue).2.Pairwise (fun a b => a.hash ≠ b.hash)) ∧
      Inv1 (removeLoop true pool queue).1 ∧
      SubPool (removeLoop true pool queue).1 pool := by
  intro pool queue
  induction pool, queue using removeLoop.induct true with
  | case1 pool =>
    intro hInv
    rw [removeLoop_nil]
    refine ⟨?_, ?_, List.Pairwise.nil, hInv, subPool_refl pool⟩
    · intro h2
      simp
    · intro t
      simp
  | case2 pool hash rest hfind ih =>
    intro hInv
    obtain ⟨iha, ihb, ihc, ihd, ihe⟩ := ih hInv
    rw [removeLoop_cons_none hfind]
    refine ⟨?_, ?_, ihc, ihd, ihe⟩
    · intro h2
      rw [iha h2]
      constructor
      · rintro ⟨hp, hne⟩
        refine ⟨hp, ?_⟩
        rintro ⟨q, hq, hdesc⟩
        rcases List.mem_cons.mp hq with h | h
        · subst h
          have h3 := poolDesc_of_unpooled hfind hdesc
          subst h3
          rw [(containsA_eq_false_iff _ _).mpr hfind] at hp
          cases hp
        · exact hne ⟨q, h, hdesc⟩
      · rintro ⟨hp, hne⟩
        exact ⟨hp, fun hex =>
          hne ⟨hex.choose, List.mem_cons_of_mem _ hex.choose_spec.1,
            hex.choose_spec.2⟩⟩
    · intro t
      rw [ihb t]
      constructor
      · rintro ⟨e, he, htx, q, hq, hdesc⟩
        exact ⟨e, he, htx, q, List.mem_cons_of_mem _ hq, hdesc⟩
      · rintro ⟨e, he, htx, q, hq, hdesc⟩
        rcases List.mem_cons.mp hq with h | h
        · subst h
          have h3 := poolDesc_of_unpooled hfind hdesc
          rw [h3, hfind] at he
          cases he
        · exact ⟨e, he, htx, q, h, hdesc⟩
  | case3 pool hash rest entry hfind ih =>
    intro hInv
    have hInv2 := inv1_eraseTx hfind hInv
    obtain ⟨iha, ihb, ihc, ihd, ihe⟩ := ih hInv2
    have hqe : (if h : true = true
        then rest ++ childHashes pool hash entry.tx.vout.length
        else rest) = rest ++ childHashes pool hash entry.tx.vout.length := rfl
    rw [hqe] at iha ihb ihc ihd ihe
    rw [removeLoop_cons_some hfind]
    have hqe2 : (if true = true
        then rest ++ childHashes pool hash entry.tx.vout.length
        else rest) = rest ++ childHashes pool hash entry.tx.vout.length := rfl
    rw [hqe2]
    have hhash : entry.tx.hash = hash :=
      (hInv.2.2.2.1 (hash, entry) (findA_mem hfind)).1
    refine ⟨?_, ?_, ?_, ihd, subPool_trans ihe (eraseTx_subPool pool hash entry)⟩
    · intro h2
      show containsA
        (removeLoop true (eraseTx pool hash entry) _).1.mapTx h2 = true ↔ _
      rw [iha h2]
      have hbr := reachSet_step hInv hfind rest h2
      constructor
      · rintro ⟨hp2, hne2⟩
        obtain ⟨hp, hh⟩ := (containsA_eraseTx pool hash entry h2).mp hp2
        refine ⟨hp, ?_⟩
        intro hd
        rcases hbr.mp ⟨hp, hd⟩ with h3 | ⟨_, h3⟩
        · exact hh h3
        · exact hne2 h3
      · rintro ⟨hp, hne⟩
        have hh : h2 ≠ hash := by
          intro h3
          subst h3
          exact hne ⟨h2, List.mem_cons_self _ _, Relation.ReflTransGen.refl⟩
        refine ⟨(containsA_eraseTx pool hash entry h2).mpr ⟨hp, hh⟩, ?_⟩
        intro hd2
        have hp2 := (containsA_eraseTx pool hash entry h2).mpr ⟨hp, hh⟩
        rcases hbr.mpr (Or.inr ⟨hp2, hd2⟩) with ⟨_, hd⟩
        exact hne hd
    · intro t
      show t ∈ entry.tx :: (removeLoop true (eraseTx pool hash entry) _).2 ↔ _
      rw [List.mem_cons, ihb t]
      constructor
      · rintro (h3 | ⟨e, he, htx, hd2⟩)
        · subst h3
          refine ⟨entry, ?_, rfl, hash, List.mem_cons_self _ _, ?_⟩
          · rw [hhash]
            exact hfind
          · rw [hhash]
            exact Relation.ReflTransGen.refl
        · have hp2 : containsA (eraseTx pool hash entry).mapTx t.hash = true :=
            (containsA_eq_true_iff _ _).mpr ⟨e, he⟩
          have hbr := reachSet_step hInv hfind rest t.hash
          obtain ⟨hp, hd⟩ := hbr.mpr (Or.inr ⟨hp2, hd2⟩)
          refine ⟨e, ?_, htx, hd⟩
          rw [findA_eraseTx_mapTx] at he
          split at he
          · cases he
          · exact he
      · rintro ⟨e, he, htx, hd⟩
        have hp : containsA pool.mapTx t.hash = true :=
          (containsA_eq_true_iff _ _).mpr ⟨e, he⟩
        have hbr := reachSet_step hInv hfind rest t.hash
        rcases hbr.mp ⟨hp, hd⟩ with h3 | ⟨hp2, hd2⟩
        · left
          rw [h3, hfind] at he
          cases he
          exact htx.symm
        · right
          refine ⟨e, ?_, htx, hd2⟩
          rw [findA_eraseTx_mapTx,
            if_neg ((containsA_eraseTx pool hash entry t.hash).mp hp2).2]
          exact he
    · show List.Pairwise _ (entry.tx :: _)
      refine List.Pairwise.cons ?_ ihc
      intro t ht
      obtain ⟨e, he, _, _⟩ := (ihb t).mp ht
      have hne : t.hash ≠ hash := by
        intro h3
        rw [findA_eraseTx_mapTx, if_pos h3] at he
        cases he
      rw [hhash]
      exact fun h3 => hne h3.symm

instance (pool : MemPoolState) : Decidable (Inv1 pool) := by
  unfold Inv1 SpendDisjoint SpendIndexOK SpendIndexSound
  infer_instance

/-- C2 (amended): for a pooled transaction T in a well-formed pool,
remove(T, removed, recursive) leaves the pool without T and without every
transitive pooled descendant of T reachable through non-coin-import
spenders, removes nothing else, and appends each removed transaction to the
caller's removed list exactly once (pooled coin-import spenders populate no
spend-index entries, so the walk cannot reach them). -/
theorem c2_remove_recursive_complete :
    ∀ (pool : MemPoolState) (T : CTransaction) (eT : CTxMemPoolEntry),
      Inv1 pool → findA pool.mapTx T.hash = some eT → eT.tx = T →
      (∀ h2, containsA (CTxMemPool.remove T true pool).1.mapTx h2 = true ↔
        (containsA pool.mapTx h2 = true ∧ ¬ PoolDesc pool T.hash h2)) ∧
      (∀ t, t ∈ (CTxMemPool.remove T true pool).2 ↔
        (∃ e, findA pool.mapTx t.hash = some e ∧ e.tx = t ∧
          PoolDesc pool T.hash t.hash)) ∧
      (CTxMemPool.remove T true pool).2.Pairwise
        (fun a b => a.hash ≠ b.hash) := by
  intro pool T eT hInv hfind htx
  have hcont : containsA pool.mapTx T.hash = true :=
    (containsA_eq_true_iff _ _).mpr ⟨eT, hfind⟩
  have hq : CTxMemPool.remove T true pool = removeLoop true pool [T.hash] := by
    unfold CTxMemPool.remove
    rw [if_neg (by simp [hcont])]
  rw [hq]
  obtain ⟨ma, mb, mc, _, _⟩ := removeLoop_recursive_spec pool [T.hash] hInv
  refine ⟨?_, ?_, mc⟩
  · intro h2
    rw [ma h2]
    simp
  · intro t
    rw [mb t]
    simp

/-- Parent transaction for the C2 witness: one output. -/
def c2wT : CTransaction :=
  { hash := 1, vin := [], vout := [{ nValue := 7 }], vJoinSplit := [],
    vShieldedSpend := [], isCoinImport := false, isCoinBase := false,
    reserveValueOut := 0 }

/-- Entry wrapping `c2wT`. -/
def c2weT : CTxMemPoolEntry :=
  { tx := c2wT, nFee := 0, nTxSize := 10, nModSize := 10, nUsageSize := 1,
    nTime := 0, dPriority := 0, nHeight := 0, hadNoDependencies := true,
    spendsCoinbase := false, hasReserve := false, nBranchId := 0 }

/-- Child transaction for the C2 witness: spends output 0 of `c2wT`. -/
def c2wB : CTransaction :=
  { hash := 2, vin := [{ prevout := { hash := 1, n := 0 } }], vout := [],
    vJoinSplit := [], vShieldedSpend := [], isCoinImport := false,
    isCoinBase := false, reserveValueOut := 0 }

/-- Entry wrapping `c2wB`. -/
def c2weB : CTxMemPoolEntry :=
  { tx := c2wB, nFee := 0, nTxSize := 10, nModSize := 10, nUsageSize := 1,
    nTime := 0, dPriority := 0, nHeight := 0, hadNoDependencies := false,
    spendsCoinbase := false, hasReserve := false, nBranchId := 0 }

/-- Concrete two-transaction pool (parent and spending child) for the C2
witness. -/
def c2wpool : MemPoolState :=
  CTxMemPool.addUnchecked 2 c2weB (CTxMemPool.addUnchecked 1 c2weT emptyPool)

/-- Witness for C2: the theorem applied at the concrete two-transaction
pool. -/
theorem c2_remove_recursive_complete_witness :
    Inv1 c2wpool ∧ findA c2wpool.mapTx c2wT.hash = some c2weT ∧
    (∀ h2, containsA (CTxMemPool.remove c2wT true c2wpool).1.mapTx h2 = true
      ↔ (containsA c2wpool.mapTx h2 = true ∧
          ¬ PoolDesc c2wpool c2wT.hash h2)) :=
  ⟨by decide, by decide,
   (c2_remove_recursive_complete c2wpool c2wT c2weT (by decide) (by decide)
     rfl).1⟩

/-- Parent transaction for the C2 counterexample. -/
def c2cT : CTransaction :=
  { hash := 1, vin := [], vout := [{ nValue := 7 }], vJoinSplit := [],
    vShieldedSpend := [], isCoinImport := false, isCoinBase := false,
    reserveValueOut := 0 }

/-- Entry wrapping `c2cT`. -/
def c2ceT : CTxMemPoolEntry :=
  { tx := c2cT, nFee := 0, nTxSize := 10, nModSize := 10, nUsageSize := 1,
    nTime := 0, dPriority := 0, nHeight := 0, hadNoDependencies := true,
    spendsCoinbase := false, hasReserve := false, nBranchId := 0 }

/-- Coin-import child for the C2 counterexample: it spends output 0 of
`c2cT` but, being a coin-import, has no spend-index entries. -/
def c2cB : CTransaction :=
  { hash := 2, vin := [{ prevout := { hash := 1, n := 0 } }], vout := [],
    vJoinSplit := [], vShieldedSpend := [], isCoinImport := true,
    isCoinBase := false, reserveValueOut := 0 }

/-- Entry wrapping `c2cB`. -/
def c2ceB : CTxMemPoolEntry :=
  { tx := c2cB, nFee := 0, nTxSize := 10, nModSize := 10, nUsageSize := 1,
    nTime := 0, dPriority := 0, nHeight := 0, hadNoDependencies := false,
    spendsCoinbase := false, hasReserve := false, nBranchId := 0 }

/-- Pool holding `c2cT` and its coin-import spender `c2cB`. -/
def c2cpool : MemPoolState :=
  CTxMemPool.addUnchecked 2 c2ceB (CTxMemPool.addUnchecked 1 c2ceT emptyPool)

/-- Counterexample to C2 as stated: in a well-formed pool, the pooled
coin-import transaction `c2cB` directly spends an output of the pooled
transaction `c2cT`, yet it is still pooled after remove(c2cT, recursive) —
the claim promises every pooled transaction spending an output of T is
removed. -/
theorem c2_counterexample :
    Inv1 c2cpool ∧
    findA c2cpool.mapTx c2cT.hash = some c2ceT ∧ c2ceT.tx = c2cT ∧
    (∃ txin ∈ c2cB.vin, txin.prevout.hash = c2cT.hash ∧
      txin.prevout.n < c2cT.vout.length) ∧
    containsA c2cpool.mapTx c2cB.hash = true ∧
    containsA (CTxMemPool.remove c2cT true c2cpool).1.mapTx c2cB.hash
      = true := by
  refine ⟨by decide, by decide, rfl, by decide, by decide, ?_⟩
  have h1 : CTxMemPool.remove c2cT true c2cpool =
      removeLoop true c2cpool [c2cT.hash] := by
    unfold CTxMemPool.remove
    rw [if_neg (by decide)]
  rw [h1, removeLoop_cons_some
    (show findA c2cpool.mapTx c2cT.hash = some c2ceT by decide)]
  have h2 : (if true = true
      then [] ++ childHashes c2cpool c2cT.hash c2ceT.tx.vout.length
      else ([] : List Nat)) = [] := by decide
  rw [h2, removeLoop_nil]
  decide

/-! ### Claim C3: removeConflicts -/

/-- The nullifier lockstep invariant: every nullifier-index entry points to
a pooled transaction that spends it, and every nullifier spent by a pooled
transaction is indexed to exactly that transaction, for both shielded
types. -/
def NullifierOK (pool : MemPoolState) : Prop :=
  (∀ q ∈ pool.mapSproutNullifiers,
    CTxMemPool.lookup pool q.2.hash = some q.2 ∧
    q.1 ∈ sproutNullifiersOf q.2) ∧
  (∀ p ∈ pool.mapTx, ∀ nf ∈ sproutNullifiersOf p.2.tx,
    findA pool.mapSproutNullifiers nf = some p.2.tx) ∧
  (∀ q ∈ pool.mapSaplingNullifiers,
    CTxMemPool.lookup pool q.2.hash = some q.2 ∧
    q.1 ∈ saplingNullifiersOf q.2) ∧
  (∀ p ∈ pool.mapTx, ∀ nf ∈ saplingNullifiersOf p.2.tx,
    findA pool.mapSaplingNullifiers nf = some p.2.tx)

instance (pool : MemPoolState) : Decidable (NullifierOK pool) := by
  unfold NullifierOK
  infer_instance

theorem mem_saplingNullifiersOf {tx : CTransaction} {nf : Nat} :
    nf ∈ saplingNullifiersOf tx ↔
      ∃ sd ∈ tx.vShieldedSpend, sd.nullifier = nf := by
  unfold saplingNullifiersOf
  rw [List.mem_map]

theorem eraseTx_mapSprout (pool : MemPoolState) (h : Nat)
    (e : CTxMemPoolEntry) :
    (eraseTx pool h e).mapSproutNullifiers =
      (sproutNullifiersOf e.tx).foldl (fun m nf => eraseA m nf)
        pool.mapSproutNullifiers := by
  show e.tx.vJoinSplit.foldl _ _ = _
  rw [sprout_erase_flatten]

theorem nullifierOK_eraseTx {pool : MemPoolState} {h : Nat}
    {e : CTxMemPoolEntry} (hf : findA pool.mapTx h = some e)
    (hInv : Inv1 pool) (hN : NullifierOK pool) :
    NullifierOK (eraseTx pool h e) := by
  obtain ⟨hn1, hn2, hdj, hok, hsnd⟩ := hInv
  obtain ⟨hs1, hs2, hp1, hp2⟩ := hN
  have hkey : ∀ p ∈ pool.mapTx, p.2.tx.hash = p.1 := fun p hp => (hok p hp).1
  have hehash : e.tx.hash = h := hkey (h, e) (findA_mem hf)
  refine ⟨?_, ?_, ?_, ?_⟩
  · -- sprout entries point to pooled owners
    intro q hq
    rw [eraseTx_mapSprout] at hq
    obtain ⟨hqm, hqne⟩ := mem_foldl_eraseA (f := fun nf => nf) hq
    obtain ⟨hl, hnf⟩ := hs1 q hqm
    have hne : q.2.hash ≠ h := by
      intro he2
      unfold CTxMemPool.lookup at hl
      rw [he2, hf] at hl
      have hl2 : e.tx = q.2 := by simpa using hl
      exact hqne q.1 (by rw [hl2]; exact hnf) rfl
    refine ⟨?_, hnf⟩
    unfold CTxMemPool.lookup at hl ⊢
    rw [findA_eraseTx_mapTx, if_neg hne]
    exact hl
  · -- pooled transactions still have their sprout nullifiers indexed
    intro p hp nf hnf
    have hpe : p ∈ eraseA pool.mapTx h := hp
    obtain ⟨hpm, hpne⟩ := mem_eraseA hpe
    rw [eraseTx_mapSprout, foldl_eraseA_findA, if_neg ?hno]
    case hno =>
      rintro ⟨nf2, hnf2, he2⟩
      subst he2
      have h1 := hs2 (h, e) (findA_mem hf) nf2 hnf2
      have h2 := hs2 p hpm nf2 hnf
      rw [h1] at h2
      have h4 : e.tx = p.2.tx := by injection h2
      have h3 : p.2.tx.hash = e.tx.hash := by rw [h4]
      rw [hehash, hkey p hpm] at h3
      exact hpne h3
    exact hs2 p hpm nf hnf
  · -- sapling entries point to pooled owners
    intro q hq
    have hq2 : q ∈ e.tx.vShieldedSpend.foldl
        (fun m sd => eraseA m sd.nullifier) pool.mapSaplingNullifiers := hq
    obtain ⟨hqm, hqne⟩ :=
      mem_foldl_eraseA (f := SpendDescription.nullifier) hq2
    obtain ⟨hl, hnf⟩ := hp1 q hqm
    have hne : q.2.hash ≠ h := by
      intro he2
      unfold CTxMemPool.lookup at hl
      rw [he2, hf] at hl
      have hl2 : e.tx = q.2 := by simpa using hl
      rw [← hl2] at hnf
      obtain ⟨sd, hsd, hsdn⟩ := mem_saplingNullifiersOf.mp hnf
      exact hqne sd hsd hsdn
    refine ⟨?_, hnf⟩
    unfold CTxMemPool.lookup at hl ⊢
    rw [findA_eraseTx_mapTx, if_neg hne]
    exact hl
  · -- pooled transactions still have their sapling nullifiers indexed
    intro p hp nf hnf
    have hpe : p ∈ eraseA pool.mapTx h := hp
    obtain ⟨hpm, hpne⟩ := mem_eraseA hpe
    show findA (e.tx.vShieldedSpend.foldl
      (fun m sd => eraseA m sd.nullifier) pool.mapSaplingNullifiers)
      nf = _
    rw [foldl_eraseA_findA, if_neg ?hno]
    case hno =>
      rintro ⟨sd, hsd, he2⟩
      subst he2
      have hnfe : sd.nullifier ∈ saplingNullifiersOf e.tx :=
        mem_saplingNullifiersOf.mpr ⟨sd, hsd, rfl⟩
      have h1 := hp2 (h, e) (findA_mem hf) sd.nullifier hnfe
      have h2 := hp2 p hpm sd.nullifier hnf
      rw [h1] at h2
      have h4 : e.tx = p.2.tx := by injection h2
      have h3 : p.2.tx.hash = e.tx.hash := by rw [h4]
      rw [hehash, hkey p hpm] at h3
      exact hpne h3
    exact hp2 p hpm nf hnf

theorem inv1N_removeLoop (fRecursive : Bool) (pool : MemPoolState)
    (queue : List Nat) (h : Inv1 pool ∧ NullifierOK pool) :
    Inv1 (removeLoop fRecursive pool queue).1 ∧
    NullifierOK (removeLoop fRecursive pool queue).1 := by
  induction pool, queue using removeLoop.induct fRecursive with
  | case1 pool => simpa [removeLoop_nil] using h
  | case2 pool hash rest hfind ih =>
    rw [removeLoop_cons_none hfind]
    exact ih h
  | case3 pool hash rest entry hfind ih =>
    rw [removeLoop_cons_some hfind]
    exact ih ⟨inv1_eraseTx hfind h.1, nullifierOK_eraseTx hfind h.1 h.2⟩

/-- The recursive-removal specification at the `remove` level, for a pooled
root. -/
theorem remove_spec_pooled {pool : MemPoolState} {c : CTransaction}
    {ec : CTxMemPoolEntry} (hInv : Inv1 pool)
    (hfind : findA pool.mapTx c.hash = some ec) :
    (∀ h2, containsA (CTxMemPool.remove c true pool).1.mapTx h2 = true ↔
      (containsA pool.mapTx h2 = true ∧ ¬ PoolDesc pool c.hash h2)) ∧
    (∀ t, t ∈ (CTxMemPool.remove c true pool).2 ↔
      (∃ e, findA pool.mapTx t.hash = some e ∧ e.tx = t ∧
        PoolDesc pool c.hash t.hash)) ∧
    (CTxMemPool.remove c true pool).2.Pairwise (fun a b => a.hash ≠ b.hash) ∧
    Inv1 (CTxMemPool.remove c true pool).1 ∧
    SubPool (CTxMemPool.remove c true pool).1 pool := by
  have hcont : containsA pool.mapTx c.hash = true :=
    (containsA_eq_true_iff _ _).mpr ⟨ec, hfind⟩
  have hq : CTxMemPool.remove c true pool = removeLoop true pool [c.hash] := by
    unfold CTxMemPool.remove
    rw [if_neg (by simp [hcont])]
  rw [hq]
  obtain ⟨ma, mb, mc, md, me⟩ := removeLoop_recursive_spec pool [c.hash] hInv
  refine ⟨?_, ?_, mc, md, me⟩
  · intro h2
    rw [ma h2]
    simp
  · intro t
    rw [mb t]
    simp

theorem nullifierOK_remove {pool : MemPoolState} (origTx : CTransaction)
    (fRecursive : Bool) (hInv : Inv1 pool) (hN : NullifierOK pool) :
    NullifierOK (CTxMemPool.remove origTx fRecursive pool).1 := by
  unfold CTxMemPool.remove
  exact (inv1N_removeLoop _ _ _ ⟨hInv, hN⟩).2

/-- The invariant carried through `removeConflicts`'s three loops: the
working pool stays well-formed, only shrinks, `removed` lists pairwise
hash-distinct transactions that were pooled at entry and are now absent,
everything that became absent is listed, and absence is closed under the
original child relation. -/
def C3Inv (pool : MemPoolState) (acc : MemPoolState × List CTransaction) :
    Prop :=
  Inv1 acc.1 ∧ NullifierOK acc.1 ∧ SubPool acc.1 pool ∧
  acc.2.Pairwise (fun a b => a.hash ≠ b.hash) ∧
  (∀ t ∈ acc.2, (∃ e, findA pool.mapTx t.hash = some e ∧ e.tx = t) ∧
    containsA acc.1.mapTx t.hash = false) ∧
  (∀ t e, findA pool.mapTx t.hash = some e → e.tx = t →
    containsA acc.1.mapTx t.hash = false → t ∈ acc.2) ∧
  (∀ h2, containsA acc.1.mapTx h2 = false →
    containsA pool.mapTx h2 = true →
    ∀ h3, childRel pool h2 h3 → containsA acc.1.mapTx h3 = false)

theorem c3inv_init {pool : MemPoolState} (hInv : Inv1 pool)
    (hN : NullifierOK pool) : C3Inv pool (pool, []) := by
  refine ⟨hInv, hN, subPool_refl pool, List.Pairwise.nil, ?_, ?_, ?_⟩
  · intro t ht
    cases ht
  · intro t e hfind htx habs
    rw [(containsA_eq_true_iff _ _).mpr ⟨e, hfind⟩] at habs
    cases habs
  · intro h2 habs hcont
    rw [hcont] at habs
    cases habs

theorem absence_mono_of_subPool {p q : MemPoolState} (hs : SubPool p q)
    {h2 : Nat} (habs : containsA q.mapTx h2 = false) :
    containsA p.mapTx h2 = false := by
  rw [containsA_eq_false_iff] at habs ⊢
  cases hf : findA p.mapTx h2 with
  | none => rfl
  | some e =>
    rw [hs.1 h2 e hf] at habs
    cases habs

/-- The single-removal step of `removeConflicts`, for a conflict that is
pooled in the current working pool: the invariant is preserved, the
conflict lands in `removed` and is gone, and nothing absent reappears. -/
theorem conflict_remove_step {pool : MemPoolState}
    {acc : MemPoolState × List CTransaction} (hI : C3Inv pool acc)
    {c : CTransaction} {ec : CTxMemPoolEntry}
    (hfound : findA acc.1.mapTx c.hash = some ec) (hctx : ec.tx = c) :
    C3Inv pool ((CTxMemPool.remove c true acc.1).1,
      acc.2 ++ (CTxMemPool.remove c true acc.1).2) ∧
    c ∈ acc.2 ++ (CTxMemPool.remove c true acc.1).2 ∧
    containsA (CTxMemPool.remove c true acc.1).1.mapTx c.hash = false ∧
    (∀ h2, containsA acc.1.mapTx h2 = false →
      containsA (CTxMemPool.remove c true acc.1).1.mapTx h2 = false) := by
  obtain ⟨hInv, hN, hsub, hpw, hout, hG, hF⟩ := hI
  obtain ⟨ma, mb, mc, md, me⟩ := remove_spec_pooled hInv hfound
  have hmono : ∀ h2, containsA acc.1.mapTx h2 = false →
      containsA (CTxMemPool.remove c true acc.1).1.mapTx h2 = false :=
    fun h2 habs => absence_mono_of_subPool me habs
  have hcmem : c ∈ (CTxMemPool.remove c true acc.1).2 :=
    (mb c).mpr ⟨ec, hfound, hctx, Relation.ReflTransGen.refl⟩
  have hcabs : containsA (CTxMemPool.remove c true acc.1).1.mapTx c.hash
      = false := by
    cases habs : containsA (CTxMemPool.remove c true acc.1).1.mapTx c.hash
    · rfl
    · obtain ⟨_, hnd⟩ := (ma c.hash).mp habs
      exact absurd Relation.ReflTransGen.refl hnd
  -- pooled in the working pool implies pooled (same entry) originally
  have hfwd : ∀ (t : CTransaction) (e : CTxMemPoolEntry),
      findA acc.1.mapTx t.hash = some e →
      findA pool.mapTx t.hash = some e := fun t e h => hsub.1 t.hash e h
  refine ⟨⟨md, nullifierOK_remove c true hInv hN,
    subPool_trans me hsub, ?_, ?_, ?_, ?_⟩, List.mem_append.mpr
      (Or.inr hcmem), hcabs, hmono⟩
  · -- pairwise
    rw [List.pairwise_append]
    refine ⟨hpw, mc, ?_⟩
    intro t1 h1 t2 h2
    obtain ⟨_, habs1⟩ := hout t1 h1
    obtain ⟨e2, hf2, _, _⟩ := (mb t2).mp h2
    intro he
    rw [he, (containsA_eq_true_iff _ _).mpr ⟨e2, hf2⟩] at habs1
    cases habs1
  · -- membership facts for the new removed list
    intro t ht
    rcases List.mem_append.mp ht with ht | ht
    · obtain ⟨hp, habs⟩ := hout t ht
      exact ⟨hp, hmono _ habs⟩
    · obtain ⟨e2, hf2, htx2, hd2⟩ := (mb t).mp ht
      refine ⟨⟨e2, hfwd t e2 hf2, htx2⟩, ?_⟩
      cases habs : containsA
        (CTxMemPool.remove c true acc.1).1.mapTx t.hash
      · rfl
      · obtain ⟨_, hnd⟩ := (ma t.hash).mp habs
        exact absurd hd2 hnd
  · -- everything absent is listed
    intro t e hfind0 htx0 habs
    by_cases hcur : containsA acc.1.mapTx t.hash = true
    · obtain ⟨e1, hf1⟩ := (containsA_eq_true_iff _ _).mp hcur
      have he1 : e1 = e := by
        have h4 := hfwd t e1 hf1
        rw [hfind0] at h4
        injection h4 with h4e
        exact h4e.symm
      subst he1
      have hd : PoolDesc acc.1 c.hash t.hash := by
        by_contra hnd
        rw [(ma t.hash).mpr ⟨hcur, hnd⟩] at habs
        cases habs
      exact List.mem_append.mpr (Or.inr ((mb t).mpr ⟨e1, hf1, htx0, hd⟩))
    · have habs2 : containsA acc.1.mapTx t.hash = false := by
        cases h2 : containsA acc.1.mapTx t.hash
        · rfl
        · exact absurd h2 hcur
      exact List.mem_append.mpr (Or.inl (hG t e hfind0 htx0 habs2))
  · -- absence closed under original children
    intro h2 habs hcont0 h3 hch
    by_cases habs2 : containsA acc.1.mapTx h2 = false
    · exact hmono _ (hF h2 habs2 hcont0 h3 hch)
    · have hcur2 : containsA acc.1.mapTx h2 = true := by
        cases hx : containsA acc.1.mapTx h2
        · exact absurd hx habs2
        · rfl
      by_cases habs3 : containsA acc.1.mapTx h3 = false
      · exact hmono _ habs3
      · have hcur3 : containsA acc.1.mapTx h3 = true := by
          cases hx : containsA acc.1.mapTx h3
          · exact absurd hx habs3
          · rfl
        -- transfer the child edge into the working pool
        obtain ⟨ep, ecq, hep, hec, himp, txin, htxin, hh, hn⟩ := hch
        obtain ⟨e2, hf2⟩ := (containsA_eq_true_iff _ _).mp hcur2
        obtain ⟨e3, hf3⟩ := (containsA_eq_true_iff _ _).mp hcur3
        have h4 : findA pool.mapTx h2 = some e2 := hsub.1 h2 e2 hf2
        rw [hep] at h4
        injection h4 with h4e
        have h5 : findA pool.mapTx h3 = some e3 := hsub.1 h3 e3 hf3
        rw [hec] at h5
        injection h5 with h5e
        have hd2 : PoolDesc acc.1 c.hash h2 := by
          by_contra hnd
          rw [(ma h2).mpr ⟨hcur2, hnd⟩] at habs
          cases habs
        have hch2 : childRel acc.1 h2 h3 :=
          ⟨e2, e3, hf2, hf3, h5e ▸ himp, txin, h5e ▸ htxin, hh, h4e ▸ hn⟩
        have hd3 : PoolDesc acc.1 c.hash h3 :=
          Relation.ReflTransGen.tail hd2 hch2
        cases hx3 : containsA (CTxMemPool.remove c true acc.1).1.mapTx h3
        · rfl
        · obtain ⟨_, hnd3⟩ := (ma h3).mp hx3
          exact absurd hd3 hnd3

/-- The parts of the `removeConflicts` invariant that mention the incoming
transaction `tx`: nothing with `tx`'s hash is ever listed as removed, and
`tx.hash`'s primary-index membership never changes. -/
def C3Tx (pool : MemPoolState) (tx : CTransaction)
    (acc : MemPoolState × List CTransaction) : Prop :=
  (∀ t ∈ acc.2, t.hash ≠ tx.hash) ∧
  containsA acc.1.mapTx tx.hash = containsA pool.mapTx tx.hash

/-- After reaching state `st`, every transaction that was pooled in `pool`,
has a hash other than `tx`'s and satisfies `P` is gone from `st`. -/
def ConflictGone (pool : MemPoolState) (tx : CTransaction)
    (P : CTransaction → Prop) (st : MemPoolState) : Prop :=
  ∀ t e, findA pool.mapTx t.hash = some e → e.tx = t → t.hash ≠ tx.hash →
    P t → containsA st.mapTx t.hash = false

theorem conflictGone_mono {pool : MemPoolState} {tx : CTransaction}
    {P : CTransaction → Prop} {s s' : MemPoolState}
    (hmono : ∀ h2, containsA s.mapTx h2 = false →
      containsA s'.mapTx h2 = false)
    (hg : ConflictGone pool tx P s) : ConflictGone pool tx P s' :=
  fun t e h1 h2 h3 h4 => hmono t.hash (hg t e h1 h2 h3 h4)

/-- The removal step again, now also carrying `C3Tx`: it is preserved
whenever the removed conflict's hash differs from `tx.hash` and `tx.hash`'s
entry (if still pooled) is a coin-import — the two situations in which the
recursive walk cannot reach `tx.hash`. -/
theorem conflict_remove_step_tx {pool : MemPoolState} {tx : CTransaction}
    {acc : MemPoolState × List CTransaction} (hI : C3Inv pool acc)
    (hT : C3Tx pool tx acc) {c : CTransaction} {ec : CTxMemPoolEntry}
    (hfound : findA acc.1.mapTx c.hash = some ec) (hctx : ec.tx = c)
    (hne : c.hash ≠ tx.hash)
    (hshield : ∀ et, findA acc.1.mapTx tx.hash = some et →
      et.tx.isCoinImport = true) :
    C3Inv pool ((CTxMemPool.remove c true acc.1).1,
      acc.2 ++ (CTxMemPool.remove c true acc.1).2) ∧
    C3Tx pool tx ((CTxMemPool.remove c true acc.1).1,
      acc.2 ++ (CTxMemPool.remove c true acc.1).2) ∧
    containsA (CTxMemPool.remove c true acc.1).1.mapTx c.hash = false ∧
    (∀ h2, containsA acc.1.mapTx h2 = false →
      containsA (CTxMemPool.remove c true acc.1).1.mapTx h2 = false) := by
  obtain ⟨hI2, hcmem, hcabs, hmono⟩ := conflict_remove_step hI hfound hctx
  obtain ⟨ma, mb, mc, md, me⟩ := remove_spec_pooled hI.1 hfound
  have hnotdesc : ¬ PoolDesc acc.1 c.hash tx.hash := by
    intro hdesc
    rcases Relation.ReflTransGen.cases_tail hdesc with heq | hc
    · exact hne heq.symm
    · obtain ⟨mid, hmid, ep, ecc, hep, hecc, himp, _⟩ := hc
      rw [hshield ecc hecc] at himp
      cases himp
  have htxkeep : containsA (CTxMemPool.remove c true acc.1).1.mapTx tx.hash
      = containsA acc.1.mapTx tx.hash := by
    cases hx : containsA acc.1.mapTx tx.hash
    · exact hmono _ hx
    · exact (ma tx.hash).mpr ⟨hx, hnotdesc⟩
  refine ⟨hI2, ⟨?_, ?_⟩, hcabs, hmono⟩
  · intro t ht
    rcases List.mem_append.mp ht with ht | ht
    · exact hT.1 t ht
    · obtain ⟨e2, hf2, htx2, hd2⟩ := (mb t).mp ht
      intro he
      exact hnotdesc (he ▸ hd2)
  · rw [htxkeep]
    exact hT.2

theorem c3tx_init (pool : MemPoolState) (tx : CTransaction) :
    C3Tx pool tx (pool, []) := by
  constructor
  · intro t ht
    cases ht
  · rfl

/-- A pooled non-coin-import transaction's inputs are all findable in the
spend index, pointing back at that transaction. -/
theorem spendIndex_probe {st : MemPoolState} (hInv : Inv1 st)
    {h : Nat} {e : CTxMemPoolEntry} (hf : findA st.mapTx h = some e)
    (himp : e.tx.isCoinImport = false) {b : CTxIn} (hb : b ∈ e.tx.vin) :
    ∃ i, findA st.mapNextTx b.prevout = some (CInPoint.mk e.tx i) := by
  obtain ⟨i, hi⟩ := exists_enum_of_mem hb
  have hm := findA_mem hf
  obtain ⟨_, hok⟩ := hInv.2.2.2.1 _ hm
  have hsing := hok himp (i, b) hi
  exact ⟨i, (entriesAtA_singleton_iff hInv.2.1 _ _).mp hsing⟩

/-- One `vin` iteration of `removeConflicts`: the invariants survive,
absences persist, and afterwards no pooled non-coin-import transaction
other than `tx` still spends this iteration's outpoint. -/
theorem conflictStepVin_spec {pool : MemPoolState} {tx : CTransaction}
    {acc : MemPoolState × List CTransaction} (hI : C3Inv pool acc)
    (hT : C3Tx pool tx acc)
    (hid : ∀ e, findA pool.mapTx tx.hash = some e → e.tx = tx)
    {txin : CTxIn} (htxin : txin ∈ tx.vin) :
    C3Inv pool (conflictStepVin tx acc txin) ∧
    C3Tx pool tx (conflictStepVin tx acc txin) ∧
    (∀ h2, containsA acc.1.mapTx h2 = false →
      containsA (conflictStepVin tx acc txin).1.mapTx h2 = false) ∧
    ConflictGone pool tx (fun t => t.isCoinImport = false ∧
      ∃ b ∈ t.vin, b.prevout = txin.prevout)
      (conflictStepVin tx acc txin).1 := by
  cases hprobe : findA acc.1.mapNextTx txin.prevout with
  | none =>
    have hr : conflictStepVin tx acc txin = acc := by
      unfold conflictStepVin
      rw [hprobe]
    rw [hr]
    refine ⟨hI, hT, fun _ h => h, ?_⟩
    rintro t e hfind0 htx0 hne ⟨himp, b, hb, hbp⟩
    cases hcur : containsA acc.1.mapTx t.hash with
    | false => rfl
    | true =>
      obtain ⟨e1, hf1⟩ := (containsA_eq_true_iff _ _).mp hcur
      have h4 : findA pool.mapTx t.hash = some e1 := hI.2.2.1.1 _ _ hf1
      rw [hfind0] at h4
      injection h4 with h4e
      have he1tx : e1.tx = t := by rw [← h4e]; exact htx0
      have himp1 : e1.tx.isCoinImport = false := by rw [he1tx]; exact himp
      have hb1 : b ∈ e1.tx.vin := by rw [he1tx]; exact hb
      obtain ⟨i, hip⟩ := spendIndex_probe hI.1 hf1 himp1 hb1
      rw [hbp, hprobe] at hip
      cases hip
  | some ip =>
    have hr : conflictStepVin tx acc txin = conflictRecurse tx acc ip.ptx := by
      unfold conflictStepVin
      rw [hprobe]
    rw [hr]
    have hmemN := findA_mem hprobe
    obtain ⟨hlk, hipimp, hipenum⟩ := hI.1.2.2.2.2 _ hmemN
    have hej : ∃ ej, findA acc.1.mapTx ip.ptx.hash = some ej ∧
        ej.tx = ip.ptx := by
      unfold CTxMemPool.lookup at hlk
      cases hf : findA acc.1.mapTx ip.ptx.hash with
      | none => rw [hf] at hlk; cases hlk
      | some ej =>
        rw [hf] at hlk
        simp only [Option.map_some'] at hlk
        injection hlk with hlke
        exact ⟨ej, rfl, hlke⟩
    obtain ⟨ej, hfej, hejtx⟩ := hej
    by_cases hg : ip.ptx.hash ≠ tx.hash
    · have hr2 : conflictRecurse tx acc ip.ptx =
          ((CTxMemPool.remove ip.ptx true acc.1).1,
           acc.2 ++ (CTxMemPool.remove ip.ptx true acc.1).2) := by
        unfold conflictRecurse
        rw [if_pos hg]
      rw [hr2]
      have hshield : ∀ et, findA acc.1.mapTx tx.hash = some et →
          et.tx.isCoinImport = true := by
        intro et hfet
        have hetx : et.tx = tx := hid et (hI.2.2.1.1 _ _ hfet)
        by_contra hni
        have himpf : et.tx.isCoinImport = false := by
          cases hx : et.tx.isCoinImport
          · rfl
          · exact absurd hx hni
        obtain ⟨i, hip2⟩ := spendIndex_probe hI.1 hfet himpf
          (by rw [hetx]; exact htxin)
        rw [hprobe] at hip2
        injection hip2 with hip2e
        apply hg
        rw [hip2e, hetx]
      obtain ⟨hI3, hT3, hcabs3, hmono3⟩ :=
        conflict_remove_step_tx hI hT hfej hejtx hg hshield
      refine ⟨hI3, hT3, hmono3, ?_⟩
      rintro t e hfind0 htx0 hne ⟨himp, b, hb, hbp⟩
      cases hcur : containsA acc.1.mapTx t.hash with
      | false => exact hmono3 _ hcur
      | true =>
        obtain ⟨e1, hf1⟩ := (containsA_eq_true_iff _ _).mp hcur
        have h4 : findA pool.mapTx t.hash = some e1 := hI.2.2.1.1 _ _ hf1
        rw [hfind0] at h4
        injection h4 with h4e
        have he1tx : e1.tx = t := by rw [← h4e]; exact htx0
        have himp1 : e1.tx.isCoinImport = false := by rw [he1tx]; exact himp
        have hb1 : b ∈ e1.tx.vin := by rw [he1tx]; exact hb
        obtain ⟨i, hip⟩ := spendIndex_probe hI.1 hf1 himp1 hb1
        rw [hbp, hprobe] at hip
        injection hip with hipe
        have hpt : ip.ptx = t := by rw [hipe]; exact he1tx
        rw [← hpt]
        exact hcabs3
    · have hg2 : ip.ptx.hash = tx.hash := not_not.mp hg
      have hr2 : conflictRecurse tx acc ip.ptx = acc := by
        unfold conflictRecurse
        rw [if_neg hg]
      rw [hr2]
      refine ⟨hI, hT, fun _ h => h, ?_⟩
      rintro t e hfind0 htx0 hne ⟨himp, b, hb, hbp⟩
      cases hcur : containsA acc.1.mapTx t.hash with
      | false => rfl
      | true =>
        obtain ⟨e1, hf1⟩ := (containsA_eq_true_iff _ _).mp hcur
        have h4 : findA pool.mapTx t.hash = some e1 := hI.2.2.1.1 _ _ hf1
        rw [hfind0] at h4
        injection h4 with h4e
        have he1tx : e1.tx = t := by rw [← h4e]; exact htx0
        have himp1 : e1.tx.isCoinImport = false := by rw [he1tx]; exact himp
        have hb1 : b ∈ e1.tx.vin := by rw [he1tx]; exact hb
        obtain ⟨i, hip⟩ := spendIndex_probe hI.1 hf1 himp1 hb1
        rw [hbp, hprobe] at hip
        injection hip with hipe
        have hpt : ip.ptx = t := by rw [hipe]; exact he1tx
        exact absurd (hpt ▸ hg2) hne

theorem lookup_entry {st : MemPoolState} {h : Nat} {t : CTransaction}
    (hlk : CTxMemPool.lookup st h = some t) :
    ∃ e, findA st.mapTx h = some e ∧ e.tx = t := by
  unfold CTxMemPool.lookup at hlk
  cases hf : findA st.mapTx h with
  | none => rw [hf] at hlk; cases hlk
  | some e =>
    rw [hf] at hlk
    simp only [Option.map_some'] at hlk
    injection hlk with hlke
    exact ⟨e, rfl, hlke⟩

/-- One sprout-nullifier iteration of `removeConflicts`: invariants survive,
absences persist, and afterwards no pooled transaction other than `tx`
still spends this nullifier. -/
theorem conflictStepSprout_spec {pool : MemPoolState} {tx : CTransaction}
    {acc : MemPoolState × List CTransaction} (hI : C3Inv pool acc)
    (hT : C3Tx pool tx acc)
    (hid : ∀ e, findA pool.mapTx tx.hash = some e → e.tx = tx)
    {nf : Nat} (hnf : nf ∈ sproutNullifiersOf tx) :
    C3Inv pool (conflictStepSprout tx acc nf) ∧
    C3Tx pool tx (conflictStepSprout tx acc nf) ∧
    (∀ h2, containsA acc.1.mapTx h2 = false →
      containsA (conflictStepSprout tx acc nf).1.mapTx h2 = false) ∧
    ConflictGone pool tx (fun t => nf ∈ sproutNullifiersOf t)
      (conflictStepSprout tx acc nf).1 := by
  cases hprobe : findA acc.1.mapSproutNullifiers nf with
  | none =>
    have hr : conflictStepSprout tx acc nf = acc := by
      unfold conflictStepSprout
      rw [hprobe]
    rw [hr]
    refine ⟨hI, hT, fun _ h => h, ?_⟩
    intro t e hfind0 htx0 hne hP
    cases hcur : containsA acc.1.mapTx t.hash with
    | false => rfl
    | true =>
      obtain ⟨e1, hf1⟩ := (containsA_eq_true_iff _ _).mp hcur
      have h4 : findA pool.mapTx t.hash = some e1 := hI.2.2.1.1 _ _ hf1
      rw [hfind0] at h4
      injection h4 with h4e
      have he1tx : e1.tx = t := by rw [← h4e]; exact htx0
      have hnf1 : nf ∈ sproutNullifiersOf e1.tx := by rw [he1tx]; exact hP
      have h5 := hI.2.1.2.1 _ (findA_mem hf1) nf hnf1
      rw [hprobe] at h5
      cases h5
  | some txc =>
    have hr : conflictStepSprout tx acc nf = conflictRecurse tx acc txc := by
      unfold conflictStepSprout
      rw [hprobe]
    rw [hr]
    obtain ⟨hlk, _⟩ := hI.2.1.1 _ (findA_mem hprobe)
    obtain ⟨ej, hfej, hejtx⟩ := lookup_entry hlk
    by_cases hg : txc.hash ≠ tx.hash
    · have hr2 : conflictRecurse tx acc txc =
          ((CTxMemPool.remove txc true acc.1).1,
           acc.2 ++ (CTxMemPool.remove txc true acc.1).2) := by
        unfold conflictRecurse
        rw [if_pos hg]
      rw [hr2]
      have hshield : ∀ et, findA acc.1.mapTx tx.hash = some et →
          et.tx.isCoinImport = true := by
        intro et hfet
        have hetx : et.tx = tx := hid et (hI.2.2.1.1 _ _ hfet)
        have hnf2 : nf ∈ sproutNullifiersOf et.tx := by rw [hetx]; exact hnf
        have h5 := hI.2.1.2.1 _ (findA_mem hfet) nf hnf2
        rw [hprobe] at h5
        injection h5 with h5e
        exact absurd (by rw [h5e, hetx]) hg
      obtain ⟨hI3, hT3, hcabs3, hmono3⟩ :=
        conflict_remove_step_tx hI hT hfej hejtx hg hshield
      refine ⟨hI3, hT3, hmono3, ?_⟩
      intro t e hfind0 htx0 hne hP
      cases hcur : containsA acc.1.mapTx t.hash with
      | false => exact hmono3 _ hcur
      | true =>
        obtain ⟨e1, hf1⟩ := (containsA_eq_true_iff _ _).mp hcur
        have h4 : findA pool.mapTx t.hash = some e1 := hI.2.2.1.1 _ _ hf1
        rw [hfind0] at h4
        injection h4 with h4e
        have he1tx : e1.tx = t := by rw [← h4e]; exact htx0
        have hnf1 : nf ∈ sproutNullifiersOf e1.tx := by rw [he1tx]; exact hP
        have h5 := hI.2.1.2.1 _ (findA_mem hf1) nf hnf1
        rw [hprobe] at h5
        injection h5 with h5e
        have hpt : txc = t := h5e.trans he1tx
        rw [← hpt]
        exact hcabs3
    · have hg2 : txc.hash = tx.hash := not_not.mp hg
      have hr2 : conflictRecurse tx acc txc = acc := by
        unfold conflictRecurse
        rw [if_neg hg]
      rw [hr2]
      refine ⟨hI, hT, fun _ h => h, ?_⟩
      intro t e hfind0 htx0 hne hP
      cases hcur : containsA acc.1.mapTx t.hash with
      | false => rfl
      | true =>
        obtain ⟨e1, hf1⟩ := (containsA_eq_true_iff _ _).mp hcur
        have h4 : findA pool.mapTx t.hash = some e1 := hI.2.2.1.1 _ _ hf1
        rw [hfind0] at h4
        injection h4 with h4e
        have he1tx : e1.tx = t := by rw [← h4e]; exact htx0
        have hnf1 : nf ∈ sproutNullifiersOf e1.tx := by rw [he1tx]; exact hP
        have h5 := hI.2.1.2.1 _ (findA_mem hf1) nf hnf1
        rw [hprobe] at h5
        injection h5 with h5e
        have hpt : txc = t := h5e.trans he1tx
        exact absurd (hpt ▸ hg2) hne

/-- One sapling-spend iteration of `removeConflicts`, analogous to the
sprout case. -/
theorem conflictStepSapling_spec {pool : MemPoolState} {tx : CTransaction}
    {acc : MemPoolState × List CTransaction} (hI : C3Inv pool acc)
    (hT : C3Tx pool tx acc)
    (hid : ∀ e, findA pool.mapTx tx.hash = some e → e.tx = tx)
    {sd : SpendDescription}
    (hnf : sd.nullifier ∈ saplingNullifiersOf tx) :
    C3Inv pool (conflictStepSapling tx acc sd) ∧
    C3Tx pool tx (conflictStepSapling tx acc sd) ∧
    (∀ h2, containsA acc.1.mapTx h2 = false →
      containsA (conflictStepSapling tx acc sd).1.mapTx h2 = false) ∧
    ConflictGone pool tx (fun t => sd.nullifier ∈ saplingNullifiersOf t)
      (conflictStepSapling tx acc sd).1 := by
  cases hprobe : findA acc.1.mapSaplingNullifiers sd.nullifier with
  | none =>
    have hr : conflictStepSapling tx acc sd = acc := by
      unfold conflictStepSapling
      rw [hprobe]
    rw [hr]
    refine ⟨hI, hT, fun _ h => h, ?_⟩
    intro t e hfind0 htx0 hne hP
    cases hcur : containsA acc.1.mapTx t.hash with
    | false => rfl
    | true =>
      obtain ⟨e1, hf1⟩ := (containsA_eq_true_iff _ _).mp hcur
      have h4 : findA pool.mapTx t.hash = some e1 := hI.2.2.1.1 _ _ hf1
      rw [hfind0] at h4
      injection h4 with h4e
      have he1tx : e1.tx = t := by rw [← h4e]; exact htx0
      have hnf1 : sd.nullifier ∈ saplingNullifiersOf e1.tx := by
        rw [he1tx]; exact hP
      have h5 := hI.2.1.2.2.2 _ (findA_mem hf1) sd.nullifier hnf1
      rw [hprobe] at h5
      cases h5
  | some txc =>
    have hr : conflictStepSapling tx acc sd = conflictRecurse tx acc txc := by
      unfold conflictStepSapling
      rw [hprobe]
    rw [hr]
    obtain ⟨hlk, _⟩ := hI.2.1.2.2.1 _ (findA_mem hprobe)
    obtain ⟨ej, hfej, hejtx⟩ := lookup_entry hlk
    by_cases hg : txc.hash ≠ tx.hash
    · have hr2 : conflictRecurse tx acc txc =
          ((CTxMemPool.remove txc true acc.1).1,
           acc.2 ++ (CTxMemPool.remove txc true acc.1).2) := by
        unfold conflictRecurse
        rw [if_pos hg]
      rw [hr2]
      have hshield : ∀ et, findA acc.1.mapTx tx.hash = some et →
          et.tx.isCoinImport = true := by
        intro et hfet
        have hetx : et.tx = tx := hid et (hI.2.2.1.1 _ _ hfet)
        have hnf2 : sd.nullifier ∈ saplingNullifiersOf et.tx := by
          rw [hetx]; exact hnf
        have h5 := hI.2.1.2.2.2 _ (findA_mem hfet) sd.nullifier hnf2
        rw [hprobe] at h5
        injection h5 with h5e
        exact absurd (by rw [h5e, hetx]) hg
      obtain ⟨hI3, hT3, hcabs3, hmono3⟩ :=
        conflict_remove_step_tx hI hT hfej hejtx hg hshield
      refine ⟨hI3, hT3, hmono3, ?_⟩
      intro t e hfind0 htx0 hne hP
      cases hcur : containsA acc.1.mapTx t.hash with
      | false => exact hmono3 _ hcur
      | true =>
        obtain ⟨e1, hf1⟩ := (containsA_eq_true_iff _ _).mp hcur
        have h4 : findA pool.mapTx t.hash = some e1 := hI.2.2.1.1 _ _ hf1
        rw [hfind0] at h4
        injection h4 with h4e
        have he1tx : e1.tx = t := by rw [← h4e]; exact htx0
        have hnf1 : sd.nullifier ∈ saplingNullifiersOf e1.tx := by
          rw [he1tx]; exact hP
        have h5 := hI.2.1.2.2.2 _ (findA_mem hf1) sd.nullifier hnf1
        rw [hprobe] at h5
        injection h5 with h5e
        have hpt : txc = t := h5e.trans he1tx
        rw [← hpt]
        exact hcabs3
    · have hg2 : txc.hash = tx.hash := not_not.mp hg
      have hr2 : conflictRecurse tx acc txc = acc := by
        unfold conflictRecurse
        rw [if_neg hg]
      rw [hr2]
      refine ⟨hI, hT, fun _ h => h, ?_⟩
      intro t e hfind0 htx0 hne hP
      cases hcur : containsA acc.1.mapTx t.hash with
      | false => rfl
      | true =>
        obtain ⟨e1, hf1⟩ := (containsA_eq_true_iff _ _).mp hcur
        have h4 : findA pool.mapTx t.hash = some e1 := hI.2.2.1.1 _ _ hf1
        rw [hfind0] at h4
        injection h4 with h4e
        have he1tx : e1.tx = t := by rw [← h4e]; exact htx0
        have hnf1 : sd.nullifier ∈ saplingNullifiersOf e1.tx := by
          rw [he1tx]; exact hP
        have h5 := hI.2.1.2.2.2 _ (findA_mem hf1) sd.nullifier hnf1
        rw [hprobe] at h5
        injection h5 with h5e
        have hpt : txc = t := h5e.trans he1tx
        exact absurd (hpt ▸ hg2) hne

theorem foldl_flatten {A B C : Type} (g : B → List A) (f : C → A → C) :
    ∀ (L : List B) (init : C),
      L.foldl (fun acc b => (g b).foldl f acc) init =
      ((L.map g).flatten).foldl f init := by
  intro L
  induction L with
  | nil => intro init; rfl
  | cons b L ih =>
    intro init
    simp only [List.foldl_cons, List.map_cons, List.flatten_cons,
      List.foldl_append]
    exact ih _

theorem foldl_stepVin_spec {pool : MemPoolState} {tx : CTransaction}
    (hid : ∀ e, findA pool.mapTx tx.hash = some e → e.tx = tx) :
    ∀ (L : List CTxIn), (∀ a ∈ L, a ∈ tx.vin) →
    ∀ (acc : MemPoolState × List CTransaction), C3Inv pool acc →
      C3Tx pool tx acc →
      C3Inv pool (L.foldl (conflictStepVin tx) acc) ∧
      C3Tx pool tx (L.foldl (conflictStepVin tx) acc) ∧
      (∀ h2, containsA acc.1.mapTx h2 = false →
        containsA (L.foldl (conflictStepVin tx) acc).1.mapTx h2 = false) ∧
      (∀ a ∈ L, ConflictGone pool tx (fun t => t.isCoinImport = false ∧
        ∃ b ∈ t.vin, b.prevout = a.prevout)
        (L.foldl (conflictStepVin tx) acc).1) := by
  intro L
  induction L with
  | nil =>
    intro _ acc hI hT
    exact ⟨hI, hT, fun _ h => h, fun a ha => absurd ha (List.not_mem_nil a)⟩
  | cons a L ih =>
    intro hsub acc hI hT
    have ha : a ∈ tx.vin := hsub a (List.mem_cons_self a L)
    obtain ⟨hI1, hT1, hm1, hg1⟩ := conflictStepVin_spec hI hT hid ha
    obtain ⟨hI2, hT2, hm2, hg2⟩ :=
      ih (fun x hx => hsub x (List.mem_cons_of_mem a hx)) _ hI1 hT1
    rw [List.foldl_cons]
    refine ⟨hI2, hT2, fun h2 h => hm2 h2 (hm1 h2 h), ?_⟩
    intro x hx
    rcases List.mem_cons.mp hx with hx | hx
    · subst hx
      exact conflictGone_mono hm2 hg1
    · exact hg2 x hx

theorem foldl_stepSprout_spec {pool : MemPoolState} {tx : CTransaction}
    (hid : ∀ e, findA pool.mapTx tx.hash = some e → e.tx = tx) :
    ∀ (L : List Nat), (∀ nf ∈ L, nf ∈ sproutNullifiersOf tx) →
    ∀ (acc : MemPoolState × List CTransaction), C3Inv pool acc →
      C3Tx pool tx acc →
      C3Inv pool (L.foldl (conflictStepSprout tx) acc) ∧
      C3Tx pool tx (L.foldl (conflictStepSprout tx) acc) ∧
      (∀ h2, containsA acc.1.mapTx h2 = false →
        containsA (L.foldl (conflictStepSprout tx) acc).1.mapTx h2
          = false) ∧
      (∀ nf ∈ L, ConflictGone pool tx (fun t => nf ∈ sproutNullifiersOf t)
        (L.foldl (conflictStepSprout tx) acc).1) := by
  intro L
  induction L with
  | nil =>
    intro _ acc hI hT
    exact ⟨hI, hT, fun _ h => h, fun a ha => absurd ha (List.not_mem_nil a)⟩
  | cons a L ih =>
    intro hsub acc hI hT
    have ha : a ∈ sproutNullifiersOf tx := hsub a (List.mem_cons_self a L)
    obtain ⟨hI1, hT1, hm1, hg1⟩ := conflictStepSprout_spec hI hT hid ha
    obtain ⟨hI2, hT2, hm2, hg2⟩ :=
      ih (fun x hx => hsub x (List.mem_cons_of_mem a hx)) _ hI1 hT1
    rw [List.foldl_cons]
    refine ⟨hI2, hT2, fun h2 h => hm2 h2 (hm1 h2 h), ?_⟩
    intro x hx
    rcases List.mem_cons.mp hx with hx | hx
    · subst hx
      exact conflictGone_mono hm2 hg1
    · exact hg2 x hx

theorem foldl_stepSapling_spec {pool : MemPoolState} {tx : CTransaction}
    (hid : ∀ e, findA pool.mapTx tx.hash = some e → e.tx = tx) :
    ∀ (L : List SpendDescription),
      (∀ sd ∈ L, sd.nullifier ∈ saplingNullifiersOf tx) →
    ∀ (acc : MemPoolState × List CTransaction), C3Inv pool acc →
      C3Tx pool tx acc →
      C3Inv pool (L.foldl (conflictStepSapling tx) acc) ∧
      C3Tx pool tx (L.foldl (conflictStepSapling tx) acc) ∧
      (∀ h2, containsA acc.1.mapTx h2 = false →
        containsA (L.foldl (conflictStepSapling tx) acc).1.mapTx h2
          = false) ∧
      (∀ sd ∈ L, ConflictGone pool tx
        (fun t => sd.nullifier ∈ saplingNullifiersOf t)
        (L.foldl (conflictStepSapling tx) acc).1) := by
  intro L
  induction L with
  | nil =>
    intro _ acc hI hT
    exact ⟨hI, hT, fun _ h => h, fun a ha => absurd ha (List.not_mem_nil a)⟩
  | cons a L ih =>
    intro hsub acc hI hT
    have ha : a.nullifier ∈ saplingNullifiersOf tx :=
      hsub a (List.mem_cons_self a L)
    obtain ⟨hI1, hT1, hm1, hg1⟩ := conflictStepSapling_spec hI hT hid ha
    obtain ⟨hI2, hT2, hm2, hg2⟩ :=
      ih (fun x hx => hsub x (List.mem_cons_of_mem a hx)) _ hI1 hT1
    rw [List.foldl_cons]
    refine ⟨hI2, hT2, fun h2 h => hm2 h2 (hm1 h2 h), ?_⟩
    intro x hx
    rcases List.mem_cons.mp hx with hx | hx
    · subst hx
      exact conflictGone_mono hm2 hg1
    · exact hg2 x hx

/-- Absence propagates down original descendancy chains, given the one-step
closure property carried by `C3Inv`. -/
theorem absent_desc_chain {pool st : MemPoolState}
    (hF : ∀ h2, containsA st.mapTx h2 = false →
      containsA pool.mapTx h2 = true →
      ∀ h3, childRel pool h2 h3 → containsA st.mapTx h3 = false) :
    ∀ h2 h3, PoolDesc pool h2 h3 → containsA st.mapTx h2 = false →
      containsA pool.mapTx h2 = true → containsA st.mapTx h3 = false := by
  intro h2 h3 hd
  induction hd using Relation.ReflTransGen.head_induction_on with
  | refl => intro habs _; exact habs
  | head h1 hrest ih =>
    rename_i a c
    intro habs hpool
    have hmid : containsA st.mapTx c = false := hF _ habs hpool _ h1
    have hmidp : containsA pool.mapTx c = true := by
      obtain ⟨ep, ec, hep, hec, _⟩ := h1
      exact (containsA_eq_true_iff _ _).mpr ⟨ec, hec⟩
    exact ih hmid hmidp

/-- **C3.** `removeConflicts(tx, removed)`: in a pool satisfying the spend
and nullifier index invariants, whose entry at `tx.hash` (if any) holds
`tx` itself, the call removes every pooled transaction other than `tx`
that conflicts with `tx` — through a shared transparent outpoint, when the
conflicting transaction is not a coin-import, or through a shared sprout
or sapling nullifier — and appends each to the removed list; it adds
nothing to the pool, the removed list is pairwise hash-distinct (each
conflict appears exactly once) and contains only transactions that were
pooled, are not `tx`, and are gone afterwards; `tx.hash`'s membership is
untouched; and absence is closed under original pooled descendancy, so
removed conflicts' pooled descendants are removed too. -/
theorem c3_removeConflicts_spec (tx : CTransaction) (pool : MemPoolState)
    (hInv : Inv1 pool) (hN : NullifierOK pool)
    (hid : ∀ e, findA pool.mapTx tx.hash = some e → e.tx = tx) :
    SubPool (CTxMemPool.removeConflicts tx pool).1 pool ∧
    (∀ t e, findA pool.mapTx t.hash = some e → e.tx = t →
      t.hash ≠ tx.hash →
      ((t.isCoinImport = false ∧
          ∃ a ∈ tx.vin, ∃ b ∈ t.vin, b.prevout = a.prevout) ∨
        (∃ nf ∈ sproutNullifiersOf tx, nf ∈ sproutNullifiersOf t) ∨
        (∃ nf ∈ saplingNullifiersOf tx, nf ∈ saplingNullifiersOf t)) →
      containsA (CTxMemPool.removeConflicts tx pool).1.mapTx t.hash
        = false ∧
      t ∈ (CTxMemPool.removeConflicts tx pool).2) ∧
    (CTxMemPool.removeConflicts tx pool).2.Pairwise
      (fun a b => a.hash ≠ b.hash) ∧
    (∀ t ∈ (CTxMemPool.removeConflicts tx pool).2,
      t.hash ≠ tx.hash ∧
      (∃ e, findA pool.mapTx t.hash = some e ∧ e.tx = t) ∧
      containsA (CTxMemPool.removeConflicts tx pool).1.mapTx t.hash
        = false) ∧
    containsA (CTxMemPool.removeConflicts tx pool).1.mapTx tx.hash =
      containsA pool.mapTx tx.hash ∧
    (∀ h2, containsA (CTxMemPool.removeConflicts tx pool).1.mapTx h2
        = false →
      containsA pool.mapTx h2 = true →
      ∀ h3, PoolDesc pool h2 h3 →
        containsA (CTxMemPool.removeConflicts tx pool).1.mapTx h3
          = false) := by
  have hq : CTxMemPool.removeConflicts tx pool =
      tx.vShieldedSpend.foldl (conflictStepSapling tx)
        (((tx.vJoinSplit.map JSDescription.nullifiers).flatten).foldl
          (conflictStepSprout tx)
          (tx.vin.foldl (conflictStepVin tx) (pool, []))) := by
    unfold CTxMemPool.removeConflicts
    show tx.vShieldedSpend.foldl (conflictStepSapling tx)
        (tx.vJoinSplit.foldl
          (fun acc js => js.nullifiers.foldl (conflictStepSprout tx) acc)
          (tx.vin.foldl (conflictStepVin tx) (pool, []))) = _
    rw [foldl_flatten JSDescription.nullifiers (conflictStepSprout tx)]
  rw [hq]
  obtain ⟨hI1, hT1, hm1, hg1⟩ := foldl_stepVin_spec hid tx.vin
    (fun a ha => ha) (pool, []) (c3inv_init hInv hN) (c3tx_init pool tx)
  obtain ⟨hI2, hT2, hm2, hg2⟩ := foldl_stepSprout_spec hid
    ((tx.vJoinSplit.map JSDescription.nullifiers).flatten)
    (fun nf h => h) _ hI1 hT1
  obtain ⟨hI3, hT3, hm3, hg3⟩ := foldl_stepSapling_spec hid
    tx.vShieldedSpend
    (fun sd hsd => mem_saplingNullifiersOf.mpr ⟨sd, hsd, rfl⟩) _ hI2 hT2
  refine ⟨hI3.2.2.1, ?_, hI3.2.2.2.1, ?_, hT3.2, ?_⟩
  · intro t e hf0 ht0 hne hconf
    have habs : containsA (tx.vShieldedSpend.foldl (conflictStepSapling tx)
        (((tx.vJoinSplit.map JSDescription.nullifiers).flatten).foldl
          (conflictStepSprout tx)
          (tx.vin.foldl (conflictStepVin tx) (pool, [])))).1.mapTx t.hash
        = false := by
      rcases hconf with ⟨himp, a, hatx, b, hb, hbp⟩ | hconf | hconf
      · exact conflictGone_mono (fun h2 h => hm3 h2 (hm2 h2 h))
          (hg1 a hatx) t e hf0 ht0 hne ⟨himp, b, hb, hbp⟩
      · obtain ⟨nf, hnftx, hnft⟩ := hconf
        exact conflictGone_mono hm3 (hg2 nf hnftx) t e hf0 ht0 hne hnft
      · obtain ⟨nf, hnftx, hnft⟩ := hconf
        obtain ⟨sd, hsd, hsdnf⟩ := mem_saplingNullifiersOf.mp hnftx
        have hnft2 : sd.nullifier ∈ saplingNullifiersOf t := by
          rw [hsdnf]; exact hnft
        exact hg3 sd hsd t e hf0 ht0 hne hnft2
    exact ⟨habs, hI3.2.2.2.2.2.1 t e hf0 ht0 habs⟩
  · intro t ht
    obtain ⟨hp, habs⟩ := hI3.2.2.2.2.1 t ht
    exact ⟨hT3.1 t ht, hp, habs⟩
  · intro h2 habs hp h3 hd
    exact absent_desc_chain hI3.2.2.2.2.2.2 h2 h3 hd habs hp

/-- Pooled transaction for the C3 witness: spends outpoint (9,0). -/
def c3wc : CTransaction :=
  { hash := 1, vin := [{ prevout := { hash := 9, n := 0 } }], vout := [],
    vJoinSplit := [], vShieldedSpend := [], isCoinImport := false,
    isCoinBase := false, reserveValueOut := 0 }

/-- Entry wrapping `c3wc`. -/
def c3wec : CTxMemPoolEntry :=
  { tx := c3wc, nFee := 0, nTxSize := 10, nModSize := 10, nUsageSize := 1,
    nTime := 0, dPriority := 0, nHeight := 0, hadNoDependencies := true,
    spendsCoinbase := false, hasReserve := false, nBranchId := 0 }

/-- One-transaction pool for the C3 witness. -/
def c3wpool : MemPoolState := CTxMemPool.addUnchecked 1 c3wec emptyPool

/-- Incoming double-spend for the C3 witness: not pooled, spends the same
outpoint (9,0) as `c3wc`. -/
def c3wtxI : CTransaction :=
  { hash := 2, vin := [{ prevout := { hash := 9, n := 0 } }], vout := [],
    vJoinSplit := [], vShieldedSpend := [], isCoinImport := false,
    isCoinBase := false, reserveValueOut := 0 }

/-- Witness for C3: the theorem applied at a concrete pool holding one
transparent conflict, which is indeed removed and listed. -/
theorem c3_removeConflicts_spec_witness :
    containsA (CTxMemPool.removeConflicts c3wtxI c3wpool).1.mapTx
      c3wc.hash = false ∧
    c3wc ∈ (CTxMemPool.removeConflicts c3wtxI c3wpool).2 := by
  have hid : ∀ e, findA c3wpool.mapTx c3wtxI.hash = some e →
      e.tx = c3wtxI := by
    intro e h
    rw [show findA c3wpool.mapTx c3wtxI.hash = none from rfl] at h
    cases h
  exact (c3_removeConflicts_spec c3wtxI c3wpool (by decide) (by decide)
    hid).2.1 c3wc c3wec (by decide) (by decide) (by decide)
    (Or.inl (by decide))

/-- Pooled coin-import transaction for the C3 counterexample: spends
outpoint (5,0) but, being a coin-import, leaves no spend-index entries. -/
def c3cI : CTransaction :=
  { hash := 1, vin := [{ prevout := { hash := 5, n := 0 } }], vout := [],
    vJoinSplit := [], vShieldedSpend := [], isCoinImport := true,
    isCoinBase := false, reserveValueOut := 0 }

/-- Entry wrapping `c3cI`. -/
def c3ceI : CTxMemPoolEntry :=
  { tx := c3cI, nFee := 0, nTxSize := 10, nModSize := 10, nUsageSize := 1,
    nTime := 0, dPriority := 0, nHeight := 0, hadNoDependencies := true,
    spendsCoinbase := false, hasReserve := false, nBranchId := 0 }

/-- One-transaction pool holding the coin-import spender. -/
def c3cpool : MemPoolState := CTxMemPool.addUnchecked 1 c3ceI emptyPool

/-- Incoming transaction for the C3 counterexample: not pooled, spends the
same outpoint (5,0) as the pooled coin-import `c3cI`. -/
def c3ctx0 : CTransaction :=
  { hash := 2, vin := [{ prevout := { hash := 5, n := 0 } }], vout := [],
    vJoinSplit := [], vShieldedSpend := [], isCoinImport := false,
    isCoinBase := false, reserveValueOut := 0 }

/-- Counterexample to C3 as stated: the pooled transaction `c3cI` spends a
transparent outpoint also spent by the incoming `c3ctx0` and has a
different hash, yet `removeConflicts` leaves it pooled and returns an
empty removed list — the conflict is a coin-import, so the spend-index
probe that discovers transparent conflicts never sees it. -/
theorem c3_counterexample :
    Inv1 c3cpool ∧ NullifierOK c3cpool ∧
    (∃ a ∈ c3ctx0.vin, ∃ b ∈ c3cI.vin, b.prevout = a.prevout) ∧
    c3cI.hash ≠ c3ctx0.hash ∧
    findA c3cpool.mapTx c3cI.hash = some c3ceI ∧ c3ceI.tx = c3cI ∧
    containsA (CTxMemPool.removeConflicts c3ctx0 c3cpool).1.mapTx
      c3cI.hash = true ∧
    (CTxMemPool.removeConflicts c3ctx0 c3cpool).2 = [] := by
  decide
